import Mathlib

/-!
Verification of the wellington markdown/sidenote compiler and blog sync engine.

The development shallowly embeds the Rust sources:
* `src/sidenotes.rs` and `src/parser.rs` — the sidenote compiler and the
  streaming event transformer (`SidenoteParser`), modelled as pure functions
  over a state record, with the pulldown-cmark event stream modelled as a
  list of events and the iterator drive loop as a fuelled recursion;
* `src/sidenote_error.rs` — the error type and its display messages;
* `src/toc.rs` — the blog index data model and the `update`/`sync`
  reconciliation pass, with filesystem access (directory listing, file
  reads/writes) modelled as explicit inputs and outputs, and the conversion
  of one post modelled by an oracle for the extracted title.

Strings are modelled as lists of characters (`List Char`); brace characters
are written via `Char.ofNat` throughout.
-/

namespace Wellington

/-- The character `\x7b` (opening brace). -/
def lbrace : Char := Char.ofNat 123

/-- The character `\x7d` (closing brace). -/
def rbrace : Char := Char.ofNat 125

/-- Does the regex `[\x7b\x7d]` match this character? -/
def isBraceChar (c : Char) : Bool := c = lbrace || c = rbrace

/-- `src/sidenote_error.rs`: the `SidenoteError` enum. -/
inductive SidenoteError where
  | NotMatched
  | Nested
  | Template (s : List Char)
deriving DecidableEq, Repr

/-- `src/sidenote_error.rs`: the `Display` impl for `SidenoteError`. -/
def sidenoteErrorMessage : SidenoteError → List Char
  | .NotMatched => "Error: a sidenote delimiter was not matched".toList
  | .Nested => "Error: encountered a nested sidenote".toList
  | .Template s => "Couldn't render template: ".toList ++ s

/-- The pulldown-cmark `Tag` variants used by the program (other variants are
only ever passed through; they are collected in dedicated constructors). -/
inductive Tag where
  | Paragraph
  | Header (level : Int)
  | Code
  | CodeBlock (lang : List Char)
  | Image (url : List Char) (title : List Char)
  | Link (url : List Char) (title : List Char)
  | Emphasis
  | Strong
  | BlockQuote
  | ListTag (start : Option Nat)
  | Item
  | Rule
deriving DecidableEq, Repr

/-- The pulldown-cmark `Event` variants. -/
inductive Event where
  | Text (s : List Char)
  | Start (t : Tag)
  | End (t : Tag)
  | Html (s : List Char)
  | InlineHtml (s : List Char)
  | SoftBreak
  | HardBreak
  | FootnoteReference (s : List Char)
deriving DecidableEq, Repr

/-- `src/parser.rs`: the `SidenoteParser` state (the wrapped pulldown-cmark
parser itself is modelled as the list of not-yet-consumed input events,
threaded separately through the drive loop). -/
structure SidenoteParser where
  link_prefix : List Char
  in_code_block : Bool
  in_sidenote_block : Bool
  remaining_text : List Char
  title : Option (List Char)
  in_title : Bool
  in_image : Bool
  remaining_events : List Event
deriving DecidableEq, Repr

namespace SidenoteParser

/-- `src/parser.rs`: `SidenoteParser::new` (the `title` argument models the
initial value behind the `&mut Option<String>` supplied by the caller). -/
def new (title : Option (List Char)) : SidenoteParser where
  link_prefix := []
  in_code_block := false
  in_sidenote_block := false
  remaining_text := []
  title := title
  in_title := false
  in_image := false
  remaining_events := []

/-- `src/parser.rs`: `SidenoteParser::set_link_prefix`. -/
def set_link_prefix (p : SidenoteParser) (pre : List Char) : SidenoteParser :=
  { p with link_prefix := pre }

/-- The index of the first match of the regex `[\x7b\x7d]` in a fragment,
if any (`Regex::find` in `parse_first_sidenote`). -/
def findDelim : List Char → Option Nat
  | [] => none
  | c :: rest =>
    if isBraceChar c then some 0 else (findDelim rest).map (· + 1)

/-- `src/sidenotes.rs`: `SidenoteParser::parse_first_sidenote`: on a match
at index `i`, emit the text before `i` and stash the rest in
`remaining_text`; otherwise emit the whole text and clear `remaining_text`. -/
def parse_first_sidenote (p : SidenoteParser) (text : List Char) :
    SidenoteParser × Event :=
  match findDelim text with
  | some i => ({ p with remaining_text := text.drop i }, .Text (text.take i))
  | none => ({ p with remaining_text := [] }, .Text text)

/-- `src/sidenotes.rs`: `SidenoteParser::cycle_remaining_text`.  The
`expect("Remaining text unexpectedly empty!")` panic is modelled by `none`. -/
def cycle_remaining_text (p : SidenoteParser) :
    Option (Char × SidenoteParser) :=
  match p.remaining_text with
  | [] => none
  | c :: rest => some (c, { p with remaining_text := rest })

/-- `src/sidenotes.rs`: `SidenoteParser::parse_remaining_text`.  The outer
`Option` is `none` exactly when `cycle_remaining_text` would panic. -/
def parse_remaining_text (p : SidenoteParser) :
    Option (Except SidenoteError (SidenoteParser × Event)) :=
  match cycle_remaining_text p with
  | none => none
  | some (first_char, p1) =>
    if first_char = lbrace then
      if p1.in_sidenote_block then
        some (.error .Nested)
      else
        some (.ok ({ p1 with in_sidenote_block := true },
          .InlineHtml "<span>".toList))
    else if first_char = rbrace then
      if p1.in_sidenote_block then
        some (.ok ({ p1 with in_sidenote_block := false },
          .InlineHtml "</span>".toList))
      else
        some (.error .NotMatched)
    else
      some (.ok (parse_first_sidenote p1 (first_char :: p1.remaining_text)))

/-- `src/sidenotes.rs`: `SidenoteParser::parse_text_block`. -/
def parse_text_block (p : SidenoteParser) (text : List Char) :
    SidenoteParser × Event :=
  if p.in_code_block then
    (p, .Text text)
  else
    parse_first_sidenote p text

/-- `src/parser.rs`: `SidenoteParser::parse_code_tag`. -/
def parse_code_tag (p : SidenoteParser) (start : Bool)
    (on_success_return : Event) :
    Except SidenoteError (SidenoteParser × Event) :=
  if p.in_sidenote_block then
    .error .NotMatched
  else
    .ok ({ p with in_code_block := start }, on_success_return)

/-- `src/parser.rs`: `SidenoteParser::parse_paragraph_tag` (reads but never
writes the state, so only the produced event is returned). -/
def parse_paragraph_tag (p : SidenoteParser) (start : Bool) : Event :=
  if p.in_sidenote_block then
    if start then
      .InlineHtml "<br /><br />\n".toList
    else
      .Text []
  else
    if start then
      .Start .Paragraph
    else
      .End .Paragraph

/-- `src/parser.rs`: `SidenoteParser::start_codeblock`. -/
def start_codeblock : Event :=
  .InlineHtml "<pre><code class=\"code\">".toList

/-- Does `sub` occur as a contiguous substring of `s`?  (Models Rust's
`str::contains`.) -/
def containsSub (s sub : List Char) : Bool :=
  match s with
  | [] => sub.isPrefixOf []
  | _ :: rest => sub.isPrefixOf s || containsSub rest sub

/-- `src/parser.rs`: `SidenoteParser::link_is_relative`. -/
def link_is_relative (link : List Char) : Bool :=
  !(containsSub link "://".toList || link.head? = some '/')

/-- `src/parser.rs`: `SidenoteParser::rewrite_link` (prepending the prefix
at position 0 models `insert_str(0, &self.link_prefix)`). -/
def rewrite_link (p : SidenoteParser) (link : List Char) : List Char :=
  if link_is_relative link then
    SidenoteParser.link_prefix p ++ link
  else
    link

/-- `src/parser.rs`: `SidenoteParser::parse_next_event`. -/
def parse_next_event (p : SidenoteParser) (event : Event) :
    Except SidenoteError (SidenoteParser × Event) :=
  match event with
  | .Text text => .ok (parse_text_block p text)
  | .Start tag =>
    match tag with
    | .Code => parse_code_tag p true (.Start .Code)
    | .CodeBlock _lang => parse_code_tag p true start_codeblock
    | .Paragraph => .ok (p, parse_paragraph_tag p true)
    | .Header 1 =>
      .ok ({ p with in_title := true }, .Start (.Header 1))
    | .Image url title =>
      .ok ({ p with in_image := true },
        .Start (.Image (rewrite_link p url) title))
    | .Link link title =>
      .ok (p, .Start (.Link (rewrite_link p link) title))
    | _ => .ok (p, .Start tag)
  | .End tag =>
    match tag with
    | .Code => parse_code_tag p false (.End .Code)
    | .CodeBlock lang => parse_code_tag p false (.End (.CodeBlock lang))
    | .Paragraph => .ok (p, parse_paragraph_tag p false)
    | .Header 1 =>
      .ok ({ p with in_title := false }, .InlineHtml "</h1><section>".toList)
    | .Image url title =>
      .ok ({ p with in_image := false }, .End (.Image url title))
    | .Link link title =>
      .ok (p, .End (.Link link title))
    | _ => .ok (p, .End tag)
  | _ => .ok (p, event)

end SidenoteParser

/-- Rust's `Vec::pop`: remove and return the final element. -/
def popEvent (l : List Event) : Option (Event × List Event) :=
  match l.getLast? with
  | some e => some (e, l.dropLast)
  | none => none

/-- Outcome of one call to `SidenoteParser::next` (`src/parser.rs`,
`impl Iterator`): either the iterator panics, or it yields an error item,
or it yields an event together with the successor state and the input
events still to be consumed, or it is exhausted. -/
inductive StepOut where
  | panicked
  | fail (e : SidenoteError)
  | yield (ev : Event) (p : SidenoteParser) (inp : List Event)
  | done (p : SidenoteParser)
deriving DecidableEq, Repr

/-- `src/parser.rs`: one call of `<SidenoteParser as Iterator>::next`, with
the wrapped pulldown-cmark parser modelled by the list `inp` of its
not-yet-consumed events. -/
def nextStep (p : SidenoteParser) (inp : List Event) : StepOut :=
  match popEvent p.remaining_events with
  | some (e, rest) => .yield e { p with remaining_events := rest } inp
  | none =>
    if p.remaining_text.length > 0 then
      match SidenoteParser.parse_remaining_text p with
      | none => .panicked
      | some (.error e) => .fail e
      | some (.ok (p1, ev)) => .yield ev p1 inp
    else
      match inp with
      | [] => .done p
      | event :: inp1 =>
        match SidenoteParser.parse_next_event p event with
        | .error e => .fail e
        | .ok (p1, ev) => .yield ev p1 inp1

/-- Outcome of driving the iterator to exhaustion (as the `for` loop of
`html_from_markdown` does): panic, first error, out of fuel, or normal
termination with the list of yielded events and the final state. -/
inductive RunOut where
  | panicked
  | fail (e : SidenoteError)
  | fuelOut
  | finished (out : List Event) (p : SidenoteParser)
deriving DecidableEq, Repr

/-- Drive `nextStep` to exhaustion, collecting every yielded event, stopping
at the first error (as `html_from_markdown`'s `event?` does). -/
def run : Nat → SidenoteParser → List Event → RunOut
  | 0, _, _ => .fuelOut
  | fuel + 1, p, inp =>
    match nextStep p inp with
    | .panicked => .panicked
    | .fail e => .fail e
    | .done q => .finished [] q
    | .yield ev p1 inp1 =>
      match run fuel p1 inp1 with
      | .finished out q => .finished (ev :: out) q
      | r => r

/-- `src/parser.rs`, `html_from_markdown`: the final normalization of the
captured title (`0 => None, don't allow empty titles`). -/
def normalizeTitle : Option (List Char) → Option (List Char)
  | some t => if t.length = 0 then none else some t
  | none => none

/-- Outcome of draining the sidenote compiler on one buffered fragment. -/
inductive CompileOut where
  | panicked
  | fail (e : SidenoteError)
  | fuelOut
  | out (evs : List Event) (p : SidenoteParser)
deriving DecidableEq, Repr

/-- Call `parse_remaining_text` until `remaining_text` is empty, collecting
the produced events (the sidenote-compiler half of the iterator's drive
loop, in isolation). -/
def drainText (fuel : Nat) (p : SidenoteParser) : CompileOut :=
  if p.remaining_text.isEmpty then
    .out [] p
  else
    match fuel with
    | 0 => .fuelOut
    | fuel1 + 1 =>
      match SidenoteParser.parse_remaining_text p with
      | none => .panicked
      | some (.error e) => .fail e
      | some (.ok (p1, ev)) =>
        match drainText fuel1 p1 with
        | .out evs q => .out (ev :: evs) q
        | r => r

/-- Pull every event the sidenote compiler produces for one text fragment:
`parse_text_block` on the fragment, then `parse_remaining_text` until the
buffered `remaining_text` is empty. -/
def compileFragment (fuel : Nat) (p : SidenoteParser) (text : List Char) :
    CompileOut :=
  match SidenoteParser.parse_text_block p text with
  | (p1, ev) =>
    match drainText fuel p1 with
    | .out evs q => .out (ev :: evs) q
    | r => r

/-- The brace discipline required of a fragment: delimiters alternate
strictly (`open` says whether a sidenote is currently open) and the fragment
ends with no sidenote open. -/
def bracesOk (openSide : Bool) : List Char → Bool
  | [] => !openSide
  | c :: rest =>
    if c = lbrace then
      !openSide && bracesOk true rest
    else if c = rbrace then
      openSide && bracesOk false rest
    else
      bracesOk openSide rest

/-- Concatenate the contents of the `Text` events of a list, discarding all
other (markup) events. -/
def textContent : List Event → List Char
  | [] => []
  | .Text s :: rest => s ++ textContent rest
  | _ :: rest => textContent rest

/-- Remove every brace character from a fragment. -/
def stripBraces (s : List Char) : List Char :=
  s.filter (fun c => !isBraceChar c)

/-! ## The sync engine (`src/toc.rs`)

Filesystem paths are modelled as lists of path components; timestamps
(`SystemTime`) as natural numbers.  Directory listing is an explicit input
(`all_posts`); the file reads/writes done by `IndexedBlogPost::convert` are
modelled by an oracle `conv` giving the title extracted from converting the
post at a given path. -/

/-- `src/toc.rs`: `IndexedBlogPost` (the `path` and `checked` fields carry
`#[serde(skip)]` and are not persisted). -/
structure IndexedBlogPost where
  path : List (List Char)
  post_url : List Char
  last_updated : Nat
  first_published : Nat
  checked : Bool
  title : Option (List Char)
deriving DecidableEq, Repr, Inhabited

/-- `src/toc.rs`: `BlogPost` (a directory-scanner entry). -/
structure BlogPost where
  path : List (List Char)
  last_updated : Nat
deriving DecidableEq, Repr

/-- `src/toc.rs`: `post_url_from_path` — `/<blog-name>/<post-name>/` where
`post_name` is the path's final component and `blog_name` its parent's
final component (empty when absent). -/
def post_url_from_path (path : List (List Char)) : List Char :=
  let post_name := (path.getLast?).getD []
  let blog_name := (path.dropLast.getLast?).getD []
  ['/'] ++ blog_name ++ ['/'] ++ post_name ++ ['/']

/-- The persisted form of one index record: exactly the fields serialized
by the CSV writer (`path` and `checked` are `#[serde(skip)]`). -/
structure PersistedPost where
  post_url : List Char
  last_updated : Nat
  first_published : Nat
  title : Option (List Char)
deriving DecidableEq, Repr

/-- Project an in-memory index record to its persisted form
(`Blog::persist` serializes each record; skipped fields are dropped). -/
def toPersisted (b : IndexedBlogPost) : PersistedPost where
  post_url := b.post_url
  last_updated := b.last_updated
  first_published := b.first_published
  title := b.title

/-- `Blog::load`: deserialize one persisted record; `#[serde(skip)]` fields
take their default values (`PathBuf::new()` and `false`). -/
def loadPost (r : PersistedPost) : IndexedBlogPost where
  path := []
  post_url := r.post_url
  last_updated := r.last_updated
  first_published := r.first_published
  checked := false
  title := r.title

/-- `src/toc.rs`: `IndexedBlogPost::convert`, with the file read, markdown
conversion and file write modelled by the oracle `conv` mapping the post's
path to the extracted title (`self.title = output.title`). -/
def convertPost (conv : List (List Char) → Option (List Char))
    (b : IndexedBlogPost) : IndexedBlogPost :=
  { b with title := conv b.path }

/-- `src/toc.rs`: `Blog::find_in_index` — linear scan for the first index
entry whose `post_url` equals the discovered post's derived url. -/
def find_in_index (index : List IndexedBlogPost) (post : BlogPost) :
    Option Nat :=
  match index with
  | [] => none
  | b :: rest =>
    if b.post_url = post_url_from_path post.path then some 0
    else (find_in_index rest post).map (· + 1)

/-- The `for post in all_posts` loop of `Blog::update`: returns the mutated
index and the number of posts counted as updated by the loop. -/
def updateLoop (conv : List (List Char) → Option (List Char)) (now : Nat)
    (dry_run : Bool) :
    List IndexedBlogPost → List BlogPost → List IndexedBlogPost × Nat
  | index, [] => (index, 0)
  | index, post :: rest =>
    match find_in_index index post with
    | some i =>
      let b0 := index.getD i default
      let b1 := { b0 with checked := true, path := post.path }
      if b1.last_updated < post.last_updated then
        let b2 := { b1 with last_updated := post.last_updated }
        let b3 := if dry_run then b2 else convertPost conv b2
        let (index1, n) := updateLoop conv now dry_run (index.set i b3) rest
        (index1, n + 1)
      else
        updateLoop conv now dry_run (index.set i b1) rest
    | none =>
      let new0 : IndexedBlogPost :=
        { path := post.path, post_url := post_url_from_path post.path,
          last_updated := now, first_published := now,
          checked := true, title := none }
      let new1 := if dry_run then new0 else convertPost conv new0
      let (index1, n) := updateLoop conv now dry_run (index ++ [new1]) rest
      (index1, n + 1)

/-- `src/toc.rs`: `Blog::update` — the discovery loop followed by the
pruning pass that keeps `checked` entries and counts each dropped entry as
an update.  The directory listing `all_posts` (the result of
`self.list_posts()`) and the clock value `now` (`SystemTime::now()`) are
explicit inputs. -/
def update (conv : List (List Char) → Option (List Char)) (now : Nat)
    (dry_run : Bool) (index : List IndexedBlogPost)
    (all_posts : List BlogPost) : List IndexedBlogPost × Nat :=
  let (index1, n) := updateLoop conv now dry_run index all_posts
  (index1.filter (fun b => b.checked), n + (index1.filter (fun b => !b.checked)).length)

/-- Result of one `Blog::sync` run: the count it returns, the in-memory
index afterwards, the persisted index file contents afterwards, and whether
the table of contents was (re)written. -/
structure SyncOut where
  count : Nat
  index_after : List IndexedBlogPost
  persisted : List PersistedPost
  wrote_toc : Bool
deriving DecidableEq, Repr

/-- `src/toc.rs`: `Blog::sync` — load the persisted index, run
`update(false)`, and only when the updated count is positive write the
table of contents and persist the index. -/
def sync (conv : List (List Char) → Option (List Char)) (now : Nat)
    (persisted0 : List PersistedPost) (all_posts : List BlogPost) : SyncOut :=
  let index0 := persisted0.map loadPost
  let (index1, num_updated) := update conv now false index0 all_posts
  if num_updated > 0 then
    { count := num_updated, index_after := index1,
      persisted := index1.map toPersisted, wrote_toc := true }
  else
    { count := num_updated, index_after := index1,
      persisted := persisted0, wrote_toc := false }

/-! ## Basic facts about the event transformer -/

theorem parse_first_sidenote_title (p : SidenoteParser) (text : List Char) :
    ((SidenoteParser.parse_first_sidenote p text).1).title = p.title := by
  cases h : SidenoteParser.findDelim text <;>
    simp [SidenoteParser.parse_first_sidenote, h]

theorem parse_first_sidenote_in_code (p : SidenoteParser) (text : List Char) :
    ((SidenoteParser.parse_first_sidenote p text).1).in_code_block =
      p.in_code_block := by
  cases h : SidenoteParser.findDelim text <;>
    simp [SidenoteParser.parse_first_sidenote, h]

theorem parse_remaining_text_isSome (p : SidenoteParser)
    (h : p.remaining_text ≠ []) :
    SidenoteParser.parse_remaining_text p ≠ none := by
  cases hr : p.remaining_text with
  | nil => exact absurd hr h
  | cons c rest =>
    simp only [SidenoteParser.parse_remaining_text,
      SidenoteParser.cycle_remaining_text, hr]
    repeat' split
    all_goals simp

theorem parse_remaining_text_preserves (p p1 : SidenoteParser) (ev : Event)
    (h : SidenoteParser.parse_remaining_text p = some (.ok (p1, ev))) :
    p1.title = p.title ∧ p1.in_code_block = p.in_code_block ∧
      p1.remaining_events = p.remaining_events := by
  cases hr : p.remaining_text with
  | nil =>
    simp [SidenoteParser.parse_remaining_text,
      SidenoteParser.cycle_remaining_text, hr] at h
  | cons c rest =>
    simp only [SidenoteParser.parse_remaining_text,
      SidenoteParser.cycle_remaining_text, hr] at h
    split at h
    · split at h
      · simp at h
      · simp only [Option.some.injEq, Except.ok.injEq, Prod.mk.injEq] at h
        obtain ⟨h1, _⟩ := h
        subst h1; simp
    · split at h
      · split at h
        · simp only [Option.some.injEq, Except.ok.injEq, Prod.mk.injEq] at h
          obtain ⟨h1, _⟩ := h
          subst h1; simp
        · simp at h
      · simp only [Option.some.injEq, Except.ok.injEq] at h
        have h1 :
            (SidenoteParser.parse_first_sidenote
              { p with remaining_text := rest } (c :: rest)).1 = p1 :=
          congrArg Prod.fst h
        subst h1
        refine ⟨?_, ?_, ?_⟩
        · rw [parse_first_sidenote_title]
        · rw [parse_first_sidenote_in_code]
        · cases hf : SidenoteParser.findDelim (c :: rest) <;>
            simp [SidenoteParser.parse_first_sidenote, hf]

theorem parse_next_event_title (p p1 : SidenoteParser) (e ev : Event)
    (h : SidenoteParser.parse_next_event p e = .ok (p1, ev)) :
    p1.title = p.title ∧ p1.remaining_events = p.remaining_events := by
  cases e with
  | Text text =>
    simp only [SidenoteParser.parse_next_event, Except.ok.injEq] at h
    have h1 : (SidenoteParser.parse_text_block p text).1 = p1 :=
      congrArg Prod.fst h
    subst h1
    by_cases hc : p.in_code_block = true
    · simp [SidenoteParser.parse_text_block, hc]
    · simp only [SidenoteParser.parse_text_block, Bool.not_eq_true] at hc ⊢
      rw [hc]
      simp only [Bool.false_eq_true, if_false]
      refine ⟨parse_first_sidenote_title _ _, ?_⟩
      cases hf : SidenoteParser.findDelim text <;>
        simp [SidenoteParser.parse_first_sidenote, hf]
  | Start tag =>
    cases tag
    all_goals
      simp only [SidenoteParser.parse_next_event,
        SidenoteParser.parse_code_tag] at h
    all_goals repeat' split at h
    all_goals
      first
      | (obtain ⟨h1, _⟩ := h
         subst h1
         simp)
      | (simp only [Except.ok.injEq, Prod.mk.injEq] at h
         obtain ⟨h1, _⟩ := h
         subst h1
         simp)
      | simp_all
  | End tag =>
    cases tag
    all_goals
      simp only [SidenoteParser.parse_next_event,
        SidenoteParser.parse_code_tag] at h
    all_goals repeat' split at h
    all_goals
      first
      | (obtain ⟨h1, _⟩ := h
         subst h1
         simp)
      | (simp only [Except.ok.injEq, Prod.mk.injEq] at h
         obtain ⟨h1, _⟩ := h
         subst h1
         simp)
      | simp_all
  | Html s =>
    simp only [SidenoteParser.parse_next_event, Except.ok.injEq,
      Prod.mk.injEq] at h
    obtain ⟨h1, _⟩ := h
    subst h1
    simp
  | InlineHtml s =>
    simp only [SidenoteParser.parse_next_event, Except.ok.injEq,
      Prod.mk.injEq] at h
    obtain ⟨h1, _⟩ := h
    subst h1
    simp
  | SoftBreak =>
    simp only [SidenoteParser.parse_next_event, Except.ok.injEq,
      Prod.mk.injEq] at h
    obtain ⟨h1, _⟩ := h
    subst h1
    simp
  | HardBreak =>
    simp only [SidenoteParser.parse_next_event, Except.ok.injEq,
      Prod.mk.injEq] at h
    obtain ⟨h1, _⟩ := h
    subst h1
    simp
  | FootnoteReference s =>
    simp only [SidenoteParser.parse_next_event, Except.ok.injEq,
      Prod.mk.injEq] at h
    obtain ⟨h1, _⟩ := h
    subst h1
    simp

theorem nextStep_ne_panicked (p : SidenoteParser) (inp : List Event) :
    nextStep p inp ≠ .panicked := by
  unfold nextStep
  cases hp : popEvent p.remaining_events with
  | some pair => simp
  | none =>
    simp only
    split
    · rename_i hlen
      cases hprt : SidenoteParser.parse_remaining_text p with
      | none =>
        exfalso
        apply parse_remaining_text_isSome p _ hprt
        intro hnil
        rw [hnil] at hlen
        simp at hlen
      | some r => cases r <;> simp
    · cases inp with
      | nil => simp
      | cons e rest =>
        cases hpe : SidenoteParser.parse_next_event p e with
        | error e1 => simp [hpe]
        | ok pr => obtain ⟨q, ev1⟩ := pr; simp [hpe]

theorem nextStep_done_eq (p r : SidenoteParser) (inp : List Event)
    (h : nextStep p inp = .done r) : r = p := by
  unfold nextStep at h
  cases hp : popEvent p.remaining_events with
  | some pair => obtain ⟨e, rest⟩ := pair; rw [hp] at h; simp at h
  | none =>
    rw [hp] at h
    simp only at h
    split at h
    · cases hprt : SidenoteParser.parse_remaining_text p with
      | none => rw [hprt] at h; simp at h
      | some r1 =>
        rw [hprt] at h
        cases r1 with
        | error e1 => simp at h
        | ok pr => obtain ⟨q, ev1⟩ := pr; simp at h
    · cases inp with
      | nil =>
        simp at h
        exact h.symm
      | cons e rest =>
        simp only at h
        cases hpe : SidenoteParser.parse_next_event p e with
        | error e1 => rw [hpe] at h; simp at h
        | ok pr => obtain ⟨q, ev1⟩ := pr; rw [hpe] at h; simp at h

theorem nextStep_title (p p1 : SidenoteParser) (inp inp1 : List Event)
    (ev : Event) (h : nextStep p inp = .yield ev p1 inp1) :
    p1.title = p.title := by
  unfold nextStep at h
  cases hp : popEvent p.remaining_events with
  | some pair =>
    obtain ⟨e, rest⟩ := pair
    rw [hp] at h
    simp only [StepOut.yield.injEq] at h
    obtain ⟨_, h1, _⟩ := h
    subst h1
    simp
  | none =>
    rw [hp] at h
    simp only at h
    split at h
    · cases hprt : SidenoteParser.parse_remaining_text p with
      | none => rw [hprt] at h; simp at h
      | some r =>
        rw [hprt] at h
        cases r with
        | error e1 => simp at h
        | ok pr =>
          obtain ⟨q, ev1⟩ := pr
          simp only [StepOut.yield.injEq] at h
          obtain ⟨_, h1, _⟩ := h
          subst h1
          exact (parse_remaining_text_preserves p q ev1 hprt).1
    · cases inp with
      | nil => simp at h
      | cons e rest =>
        simp only at h
        cases hpe : SidenoteParser.parse_next_event p e with
        | error e1 => rw [hpe] at h; simp at h
        | ok pr =>
          obtain ⟨q, ev1⟩ := pr
          rw [hpe] at h
          simp only [StepOut.yield.injEq] at h
          obtain ⟨_, h1, _⟩ := h
          subst h1
          exact (parse_next_event_title p q e ev1 hpe).1

theorem run_title (fuel : Nat) (p : SidenoteParser) (inp : List Event)
    (out : List Event) (q : SidenoteParser)
    (h : run fuel p inp = .finished out q) : q.title = p.title := by
  induction fuel generalizing p inp out with
  | zero => simp [run] at h
  | succ fuel ih =>
    unfold run at h
    cases hs : nextStep p inp with
    | panicked => rw [hs] at h; simp at h
    | fail e => rw [hs] at h; simp at h
    | done r =>
      rw [hs] at h
      simp only [RunOut.finished.injEq] at h
      obtain ⟨_, h1⟩ := h
      rw [← h1, nextStep_done_eq p r inp hs]
    | yield ev p1 inp1 =>
      rw [hs] at h
      simp only at h
      cases hr : run fuel p1 inp1 with
      | finished out1 q1 =>
        rw [hr] at h
        simp only [RunOut.finished.injEq] at h
        obtain ⟨_, h1⟩ := h
        subst h1
        rw [ih p1 inp1 out1 hr]
        exact nextStep_title p p1 inp inp1 ev hs
      | panicked => rw [hr] at h; simp at h
      | fail e => rw [hr] at h; simp at h
      | fuelOut => rw [hr] at h; simp at h

/-! ## Concrete documents used to evaluate the code -/

/-- Event stream of the document `"bla \x7b bla"` (one paragraph whose text
holds an unmatched opening delimiter). -/
def c3input : List Event :=
  [.Start .Paragraph,
   .Text ("bla ".toList ++ [lbrace] ++ " bla".toList),
   .End .Paragraph]

/-- The events the transformer emits for `c3input`. -/
def c3output : List Event :=
  [.Start .Paragraph,
   .Text "bla ".toList,
   .InlineHtml "<span>".toList,
   .Text " bla".toList,
   .Text []]

/-- The transformer state after consuming `c3input`: the sidenote is still
open. -/
def c3final : SidenoteParser :=
  { SidenoteParser.new none with in_sidenote_block := true }

/-- Event stream of a document whose first level-1 header is `hello`. -/
def c4input : List Event :=
  [.Start (.Header 1), .Text "hello".toList, .End (.Header 1),
   .Start .Paragraph, .Text "some text".toList, .End .Paragraph]

/-- The events the transformer emits for `c4input`. -/
def c4output : List Event :=
  [.Start (.Header 1), .Text "hello".toList,
   .InlineHtml "</h1><section>".toList,
   .Start .Paragraph, .Text "some text".toList, .End .Paragraph]

/-! ## Claims -/

/-- C10: the `"Remaining text unexpectedly empty!"` panic in
`cycle_remaining_text` (modelled by the `panicked` outcomes) is unreachable
through the iterator interface: `next` invokes `parse_remaining_text` only
when `remaining_text` is non-empty, and on a non-empty buffer
`cycle_remaining_text` succeeds, so driving the iterator to exhaustion —
from any state and any input whatsoever — never panics. -/
theorem claim_C10 :
    ∀ (fuel : Nat) (p : SidenoteParser) (inp : List Event),
      run fuel p inp ≠ RunOut.panicked := by
  intro fuel
  induction fuel with
  | zero => intro p inp; simp [run]
  | succ fuel ih =>
    intro p inp
    unfold run
    cases hs : nextStep p inp with
    | panicked => exact absurd hs (nextStep_ne_panicked p inp)
    | fail e => simp
    | done q => simp
    | yield ev p1 inp1 =>
      simp only
      cases hr : run fuel p1 inp1 with
      | finished out q => simp
      | panicked => exact absurd hr (ih p1 inp1)
      | fail e => simp
      | fuelOut => simp

/-- C3 (code bug): the claim says exhausting the input with
`in_sidenote_block` still true is a `NotMatched` error for the whole
document, and `src/sidenote_error.rs` documents `"bla \x7b bla"` as a
`NotMatched` example — but `next` (`src/parser.rs`) returns `None` as soon
as the wrapped parser is exhausted, without consulting
`in_sidenote_block`: on `c3input` the run terminates normally (no `fail`)
while the final state still has the sidenote open. -/
theorem claim_C3 :
    (∀ p : SidenoteParser, p.remaining_text = [] → p.remaining_events = [] →
      nextStep p [] = .done p)
  ∧ run 20 (SidenoteParser.new none) c3input = .finished c3output c3final
  ∧ c3final.in_sidenote_block = true := by
  refine ⟨?_, by decide, by decide⟩
  intro p hrt hre
  unfold nextStep
  simp [popEvent, hre, hrt]

/-- Witness for C3's general part, at the freshly initialized state. -/
theorem claim_C3_wit :
    nextStep (SidenoteParser.new none) [] = .done (SidenoteParser.new none) :=
  claim_C3.1 (SidenoteParser.new none) rfl rfl

/-- C4 (code bug): the claim (and the repository's own `can_get_title`
test) says the first level-1 header's text becomes the captured title — but
no code path of the transformer ever writes the `title` field (`in_title`
is set and cleared, and never read), so the title surviving a finished run
is always the caller's initial value, and `html_from_markdown` (which
starts from `None`) always reports no title: on `c4input` (first H1 text
`hello`) the normalized title is `none`. -/
theorem claim_C4 :
    (∀ (fuel : Nat) (p q : SidenoteParser) (inp out : List Event),
      run fuel p inp = .finished out q →
      normalizeTitle q.title = normalizeTitle p.title)
  ∧ run 20 (SidenoteParser.new none) c4input =
      .finished c4output (SidenoteParser.new none)
  ∧ normalizeTitle (SidenoteParser.new none).title = none := by
  refine ⟨?_, by decide, by decide⟩
  intro fuel p q inp out h
  rw [run_title fuel p inp out q h]

/-- Witness for C4's general part, at the concrete `c4input` run. -/
theorem claim_C4_wit :
    normalizeTitle (SidenoteParser.new none).title =
      normalizeTitle (SidenoteParser.new none).title :=
  claim_C4.1 20 (SidenoteParser.new none) (SidenoteParser.new none)
    c4input c4output claim_C4.2.1

/-- C7: a `Text` event arriving while `in_code_block` is true is emitted
unchanged and unsplit — `parse_text_block` returns it as-is without
scanning for delimiters, the state (in particular `in_sidenote_block` and
`remaining_text`) is untouched, and the iterator yields it without error. -/
theorem claim_C7 (p : SidenoteParser) (text : List Char) (inp : List Event)
    (hc : p.in_code_block = true) (hrt : p.remaining_text = [])
    (hre : p.remaining_events = []) :
    SidenoteParser.parse_text_block p text = (p, .Text text) ∧
    nextStep p (.Text text :: inp) = .yield (.Text text) p inp := by
  constructor
  · simp [SidenoteParser.parse_text_block, hc]
  · unfold nextStep
    simp [popEvent, hre, hrt, SidenoteParser.parse_next_event,
      SidenoteParser.parse_text_block, hc]

/-- Witness for C7: inside a code block, text holding literal brace
characters passes through unsplit, with no sidenote opened and no error. -/
theorem claim_C7_wit :
    SidenoteParser.parse_text_block
        { SidenoteParser.new none with in_code_block := true }
        ("code ".toList ++ [lbrace] ++ "and braces".toList) =
      ({ SidenoteParser.new none with in_code_block := true },
        .Text ("code ".toList ++ [lbrace] ++ "and braces".toList)) ∧
    nextStep { SidenoteParser.new none with in_code_block := true }
        [.Text ("code ".toList ++ [lbrace] ++ "and braces".toList)] =
      .yield (.Text ("code ".toList ++ [lbrace] ++ "and braces".toList))
        { SidenoteParser.new none with in_code_block := true } [] :=
  claim_C7 { SidenoteParser.new none with in_code_block := true }
    ("code ".toList ++ [lbrace] ++ "and braces".toList) [] rfl rfl rfl

theorem containsSub_iff (s sub : List Char) :
    SidenoteParser.containsSub s sub = true ↔ sub <:+: s := by
  induction s with
  | nil =>
    simp [SidenoteParser.containsSub]
  | cons c rest ih =>
    rw [List.infix_cons_iff]
    simp only [SidenoteParser.containsSub, Bool.or_eq_true,
      List.isPrefixOf_iff_prefix, ih]

/-- C9: `rewrite_link` prepends the configured prefix to an Image/Link URL
exactly when the URL is relative — it contains no `://` and does not start
with `/` — and returns every other URL unchanged; `parse_next_event`
applies it to `Start(Image)` and `Start(Link)` events. -/
theorem claim_C9 (p : SidenoteParser) (url title : List Char) :
    ("://".toList <:+: url ∨ url.head? = some '/' →
      SidenoteParser.rewrite_link p url = url)
  ∧ (¬("://".toList <:+: url) ∧ url.head? ≠ some '/' →
      SidenoteParser.rewrite_link p url =
        SidenoteParser.link_prefix p ++ url)
  ∧ SidenoteParser.parse_next_event p (.Start (.Image url title)) =
      .ok ({ p with in_image := true },
        .Start (.Image (SidenoteParser.rewrite_link p url) title))
  ∧ SidenoteParser.parse_next_event p (.Start (.Link url title)) =
      .ok (p, .Start (.Link (SidenoteParser.rewrite_link p url) title)) := by
  refine ⟨?_, ?_, rfl, rfl⟩
  · intro h
    rw [SidenoteParser.rewrite_link, if_neg]
    simp only [SidenoteParser.link_is_relative, Bool.not_eq_true',
      Bool.not_eq_false, Bool.or_eq_true, decide_eq_true_eq]
    rcases h with h | h
    · exact Or.inl ((containsSub_iff url _).2 h)
    · exact Or.inr h
  · intro ⟨h1, h2⟩
    rw [SidenoteParser.rewrite_link, if_pos]
    simp only [SidenoteParser.link_is_relative, Bool.not_eq_true',
      Bool.not_eq_false]
    simp only [Bool.or_eq_false_iff]
    constructor
    · rw [Bool.eq_false_iff]
      intro hc
      exact h1 ((containsSub_iff url _).1 hc)
    · simpa using h2

/-- Witness for C9: the relative URL `relative-link` is prefixed while the
absolute URL `https://image` and the root-relative `/etc/link.jpg` are
returned unchanged. -/
theorem claim_C9_wit :
    SidenoteParser.rewrite_link
        (SidenoteParser.set_link_prefix (SidenoteParser.new none)
          "/prefix/".toList) "relative-link".toList =
      "/prefix/relative-link".toList
  ∧ SidenoteParser.rewrite_link
        (SidenoteParser.set_link_prefix (SidenoteParser.new none)
          "/prefix/".toList) "https://image".toList =
      "https://image".toList
  ∧ SidenoteParser.rewrite_link
        (SidenoteParser.set_link_prefix (SidenoteParser.new none)
          "/prefix/".toList) "/etc/link.jpg".toList =
      "/etc/link.jpg".toList := by
  refine ⟨?_, ?_, ?_⟩
  · exact (claim_C9 (SidenoteParser.set_link_prefix (SidenoteParser.new none)
      "/prefix/".toList) "relative-link".toList []).2.1 ⟨by decide, by decide⟩
  · exact (claim_C9 (SidenoteParser.set_link_prefix (SidenoteParser.new none)
      "/prefix/".toList) "https://image".toList []).1 (Or.inl (by decide))
  · exact (claim_C9 (SidenoteParser.set_link_prefix (SidenoteParser.new none)
      "/prefix/".toList) "/etc/link.jpg".toList []).1 (Or.inr (by decide))

/-- Event stream of a paragraph-spanning sidenote followed by a trailing
dot: the markdown `"\x7b a sidenote\n\nspanning lines\n\n\x7d."`. -/
def c8input : List Event :=
  [.Start .Paragraph,
   .Text ([lbrace] ++ " a sidenote".toList),
   .End .Paragraph,
   .Start .Paragraph,
   .Text "spanning lines".toList,
   .End .Paragraph,
   .Start .Paragraph,
   .Text ([rbrace] ++ ".".toList),
   .End .Paragraph]

/-- The events the transformer emits for `c8input`: the paragraph breaks
inside the open sidenote become inline line-break markup, the closing
paragraph tags inside it become empty text, and the trailing `.` is
emitted after the sidenote's closing markup. -/
def c8output : List Event :=
  [.Start .Paragraph,
   .Text [],
   .InlineHtml "<span>".toList,
   .Text " a sidenote".toList,
   .Text [],
   .InlineHtml "<br /><br />\n".toList,
   .Text "spanning lines".toList,
   .Text [],
   .InlineHtml "<br /><br />\n".toList,
   .Text [],
   .InlineHtml "</span>".toList,
   .Text ".".toList,
   .End .Paragraph]

/-- C8: while a sidenote is open, a `Paragraph` start tag is rewritten to
an inline line-break markup pair and a `Paragraph` end tag emits no
paragraph markup (an empty text event); with no sidenote open both pass
through unchanged.  Consequently a sidenote spanning several paragraphs
stays one inline span and the text after the closing delimiter (the
trailing `.` of `c8input`) is emitted outside the sidenote markup. -/
theorem claim_C8 :
    (∀ p : SidenoteParser, p.in_sidenote_block = true →
      SidenoteParser.parse_paragraph_tag p true =
          .InlineHtml "<br /><br />\n".toList ∧
        SidenoteParser.parse_paragraph_tag p false = .Text [])
  ∧ (∀ p : SidenoteParser, p.in_sidenote_block = false →
      SidenoteParser.parse_paragraph_tag p true = .Start .Paragraph ∧
        SidenoteParser.parse_paragraph_tag p false = .End .Paragraph)
  ∧ run 30 (SidenoteParser.new none) c8input =
      .finished c8output (SidenoteParser.new none) := by
  refine ⟨?_, ?_, by decide⟩
  · intro p hs
    constructor <;> simp [SidenoteParser.parse_paragraph_tag, hs]
  · intro p hs
    constructor <;> simp [SidenoteParser.parse_paragraph_tag, hs]

/-- Witness for C8's conditional parts, at concrete states with the
sidenote flag set and cleared. -/
theorem claim_C8_wit :
    SidenoteParser.parse_paragraph_tag
        { SidenoteParser.new none with in_sidenote_block := true } true =
      .InlineHtml "<br /><br />\n".toList
  ∧ SidenoteParser.parse_paragraph_tag (SidenoteParser.new none) true =
      .Start .Paragraph :=
  ⟨(claim_C8.1 { SidenoteParser.new none with in_sidenote_block := true }
      rfl).1,
   (claim_C8.2.1 (SidenoteParser.new none) rfl).1⟩

/-- C6 counterexample: the error values carry no excerpt of the text
around the offending delimiter.  Two fragments whose offending `\x7d` sits
in entirely different surroundings (`ab\x7d` and `wxyz-0123\x7d`) produce
the *identical* error value `NotMatched`, rendered as one fixed message;
likewise two different nested-delimiter fragments both produce the bare
`Nested` value with one fixed message — so neither error can carry any
position-dependent excerpt, contradicting the claim. -/
theorem claim_C6_cex :
    compileFragment 20 (SidenoteParser.new none)
        ("ab".toList ++ [rbrace]) = .fail .NotMatched
  ∧ compileFragment 20 (SidenoteParser.new none)
        ("wxyz-0123".toList ++ [rbrace]) = .fail .NotMatched
  ∧ compileFragment 20 (SidenoteParser.new none)
        ([lbrace] ++ "a".toList ++ [lbrace]) = .fail .Nested
  ∧ compileFragment 20 (SidenoteParser.new none)
        ([lbrace] ++ "a longer sidenote ".toList ++ [lbrace]) =
      .fail .Nested
  ∧ sidenoteErrorMessage .NotMatched =
      "Error: a sidenote delimiter was not matched".toList
  ∧ sidenoteErrorMessage .Nested =
      "Error: encountered a nested sidenote".toList := by
  refine ⟨by decide, by decide, by decide, by decide, rfl, rfl⟩

/-- C6 as amended: whenever sidenote compilation fails, the error value is
one of the two payload-free variants `NotMatched` or `Nested`, whose
display messages are fixed strings containing no excerpt of the input —
neither `parse_remaining_text` nor `parse_code_tag` ever produces an error
carrying any text. -/
theorem claim_C6 :
    (∀ (p : SidenoteParser) (e : SidenoteError),
      SidenoteParser.parse_remaining_text p = some (.error e) →
      (e = .NotMatched ∧ sidenoteErrorMessage e =
          "Error: a sidenote delimiter was not matched".toList)
      ∨ (e = .Nested ∧ sidenoteErrorMessage e =
          "Error: encountered a nested sidenote".toList))
  ∧ (∀ (p : SidenoteParser) (start : Bool) (ev : Event) (e : SidenoteError),
      SidenoteParser.parse_code_tag p start ev = .error e →
      e = .NotMatched ∧ sidenoteErrorMessage e =
        "Error: a sidenote delimiter was not matched".toList) := by
  constructor
  · intro p e h
    cases hr : p.remaining_text with
    | nil =>
      simp [SidenoteParser.parse_remaining_text,
        SidenoteParser.cycle_remaining_text, hr] at h
    | cons c rest =>
      simp only [SidenoteParser.parse_remaining_text,
        SidenoteParser.cycle_remaining_text, hr] at h
      split at h
      · split at h
        · simp only [Option.some.injEq, Except.error.injEq] at h
          subst h
          exact Or.inr ⟨rfl, rfl⟩
        · simp at h
      · split at h
        · split at h
          · simp at h
          · simp only [Option.some.injEq, Except.error.injEq] at h
            subst h
            exact Or.inl ⟨rfl, rfl⟩
        · simp at h
  · intro p start ev e h
    simp only [SidenoteParser.parse_code_tag] at h
    split at h
    · simp only [Except.error.injEq] at h
      subst h
      exact ⟨rfl, rfl⟩
    · simp at h

/-- Witness for C6 (amended), at a concrete failing state: an unmatched
closing delimiter in the buffer, and a code tag opening inside an open
sidenote. -/
theorem claim_C6_wit :
    (SidenoteError.NotMatched = .NotMatched ∧
      sidenoteErrorMessage .NotMatched =
        "Error: a sidenote delimiter was not matched".toList)
    ∨ (SidenoteError.NotMatched = .Nested ∧
      sidenoteErrorMessage .NotMatched =
        "Error: encountered a nested sidenote".toList) :=
  claim_C6.1 { SidenoteParser.new none with remaining_text := [rbrace] }
    .NotMatched rfl

/-! ## The code/sidenote exclusion invariant -/

theorem parse_next_event_stateOk (p p1 : SidenoteParser) (e ev : Event)
    (hok : p.in_code_block = false ∨ p.in_sidenote_block = false)
    (hrt : p.remaining_text = [])
    (h : SidenoteParser.parse_next_event p e = .ok (p1, ev)) :
    (p1.in_code_block = false ∨ p1.in_sidenote_block = false) ∧
      (p1.in_code_block = true → p1.remaining_text = []) := by
  cases e with
  | Text text =>
    simp only [SidenoteParser.parse_next_event, Except.ok.injEq] at h
    have h1 : (SidenoteParser.parse_text_block p text).1 = p1 :=
      congrArg Prod.fst h
    subst h1
    by_cases hc : p.in_code_block = true
    · have hs : p.in_sidenote_block = false := by
        rcases hok with h1 | h1
        · rw [hc] at h1; simp at h1
        · exact h1
      simp only [SidenoteParser.parse_text_block, hc, if_true]
      exact ⟨Or.inr hs, fun _ => hrt⟩
    · simp only [Bool.not_eq_true] at hc
      have hpc := parse_first_sidenote_in_code p text
      constructor
      · left
        simp only [SidenoteParser.parse_text_block, hc,
          Bool.false_eq_true, if_false]
        rw [hpc, hc]
      · intro hcc
        exfalso
        simp only [SidenoteParser.parse_text_block, hc,
          Bool.false_eq_true, if_false] at hcc
        rw [hpc, hc] at hcc
        simp at hcc
  | Start tag =>
    rcases hok with hok | hok
    all_goals cases tag
    all_goals
      simp only [SidenoteParser.parse_next_event,
        SidenoteParser.parse_code_tag] at h
    all_goals repeat' split at h
    all_goals try simp_all
    all_goals
      (rw [← h.1]
       clear h
       simp_all)
  | End tag =>
    rcases hok with hok | hok
    all_goals cases tag
    all_goals
      simp only [SidenoteParser.parse_next_event,
        SidenoteParser.parse_code_tag] at h
    all_goals repeat' split at h
    all_goals try simp_all
    all_goals
      (rw [← h.1]
       clear h
       simp_all)
  | Html s =>
    simp only [SidenoteParser.parse_next_event, Except.ok.injEq,
      Prod.mk.injEq] at h
    obtain ⟨h1, _⟩ := h
    subst h1
    exact ⟨hok, fun _ => hrt⟩
  | InlineHtml s =>
    simp only [SidenoteParser.parse_next_event, Except.ok.injEq,
      Prod.mk.injEq] at h
    obtain ⟨h1, _⟩ := h
    subst h1
    exact ⟨hok, fun _ => hrt⟩
  | SoftBreak =>
    simp only [SidenoteParser.parse_next_event, Except.ok.injEq,
      Prod.mk.injEq] at h
    obtain ⟨h1, _⟩ := h
    subst h1
    exact ⟨hok, fun _ => hrt⟩
  | HardBreak =>
    simp only [SidenoteParser.parse_next_event, Except.ok.injEq,
      Prod.mk.injEq] at h
    obtain ⟨h1, _⟩ := h
    subst h1
    exact ⟨hok, fun _ => hrt⟩
  | FootnoteReference s =>
    simp only [SidenoteParser.parse_next_event, Except.ok.injEq,
      Prod.mk.injEq] at h
    obtain ⟨h1, _⟩ := h
    subst h1
    exact ⟨hok, fun _ => hrt⟩

/-- States in which the transformer is sound: the code flag and the
sidenote flag exclude each other, and a buffered fragment can only exist
outside code blocks. -/
def StateOk (p : SidenoteParser) : Prop :=
  (p.in_code_block = false ∨ p.in_sidenote_block = false) ∧
    (p.in_code_block = true → p.remaining_text = [])

theorem nextStep_stateOk (p p1 : SidenoteParser) (inp inp1 : List Event)
    (ev : Event) (hok : StateOk p)
    (h : nextStep p inp = .yield ev p1 inp1) : StateOk p1 := by
  obtain ⟨hok1, hok2⟩ := hok
  unfold nextStep at h
  cases hp : popEvent p.remaining_events with
  | some pair =>
    obtain ⟨e, rest⟩ := pair
    rw [hp] at h
    simp only [StepOut.yield.injEq] at h
    obtain ⟨_, h1, _⟩ := h
    subst h1
    exact ⟨by simpa using hok1, by simpa using hok2⟩
  | none =>
    rw [hp] at h
    simp only at h
    split at h
    · rename_i hlen
      have hrtne : p.remaining_text ≠ [] := by
        intro hnil
        rw [hnil] at hlen
        simp at hlen
      have hcf : p.in_code_block = false := by
        cases hcc : p.in_code_block with
        | false => rfl
        | true => exact absurd (hok2 hcc) hrtne
      cases hprt : SidenoteParser.parse_remaining_text p with
      | none => rw [hprt] at h; simp at h
      | some r =>
        rw [hprt] at h
        cases r with
        | error e1 => simp at h
        | ok pr =>
          obtain ⟨q, ev1⟩ := pr
          simp only [StepOut.yield.injEq] at h
          obtain ⟨_, h1, _⟩ := h
          subst h1
          have hqc := (parse_remaining_text_preserves p q ev1 hprt).2.1
          rw [hcf] at hqc
          exact ⟨Or.inl hqc, fun hcc => absurd (hqc ▸ hcc) (by simp)⟩
    · rename_i hlen
      have hrt : p.remaining_text = [] := by
        cases hr : p.remaining_text with
        | nil => rfl
        | cons c rest => rw [hr] at hlen; simp at hlen
      cases inp with
      | nil => simp at h
      | cons e rest =>
        simp only at h
        cases hpe : SidenoteParser.parse_next_event p e with
        | error e1 => rw [hpe] at h; simp at h
        | ok pr =>
          obtain ⟨q, ev1⟩ := pr
          rw [hpe] at h
          simp only [StepOut.yield.injEq] at h
          obtain ⟨_, h1, _⟩ := h
          subst h1
          exact parse_next_event_stateOk p q e ev1 hok1 hrt hpe

/-- Reachability along the iterator: `Reaches p inp q rinp` holds when the
transformer, started in state `p` with input events `inp`, can arrive
after zero or more yielded events at state `q` with input `rinp`. -/
inductive Reaches :
    SidenoteParser → List Event → SidenoteParser → List Event → Prop where
  | refl (p : SidenoteParser) (inp : List Event) : Reaches p inp p inp
  | step {p p1 q : SidenoteParser} {inp inp1 rinp : List Event} {ev : Event}
      (h : nextStep p inp = .yield ev p1 inp1)
      (hr : Reaches p1 inp1 q rinp) : Reaches p inp q rinp

theorem reaches_stateOk (p q : SidenoteParser) (inp rinp : List Event)
    (hok : StateOk p) (h : Reaches p inp q rinp) : StateOk q := by
  induction h with
  | refl p inp => exact hok
  | step hs hr ih => exact ih (nextStep_stateOk _ _ _ _ _ hok hs)

/-- C5: from the freshly initialized transformer state, `in_code_block`
and `in_sidenote_block` are never simultaneously true in any reachable
state; a `Code`/`CodeBlock` start tag arriving while a sidenote is open
yields a `NotMatched` error instead of setting `in_code_block`; and while
`in_code_block` is true, text passes through unscanned. -/
theorem claim_C5 :
    (∀ (t : Option (List Char)) (pre : List Char)
       (inp rinp : List Event) (q : SidenoteParser),
      Reaches (SidenoteParser.set_link_prefix (SidenoteParser.new t) pre)
          inp q rinp →
      ¬(q.in_code_block = true ∧ q.in_sidenote_block = true))
  ∧ (∀ (p : SidenoteParser) (ev : Event), p.in_sidenote_block = true →
      SidenoteParser.parse_code_tag p true ev = .error .NotMatched)
  ∧ (∀ (p : SidenoteParser) (text : List Char), p.in_code_block = true →
      SidenoteParser.parse_text_block p text = (p, .Text text)) := by
  refine ⟨?_, ?_, ?_⟩
  · intro t pre inp rinp q h
    have hok : StateOk
        (SidenoteParser.set_link_prefix (SidenoteParser.new t) pre) := by
      constructor <;> simp [SidenoteParser.set_link_prefix,
        SidenoteParser.new]
    have hq := reaches_stateOk _ q inp rinp hok h
    rintro ⟨hc, hs⟩
    rcases hq.1 with h1 | h1
    · rw [hc] at h1; simp at h1
    · rw [hs] at h1; simp at h1
  · intro p ev hs
    simp [SidenoteParser.parse_code_tag, hs]
  · intro p text hc
    simp [SidenoteParser.parse_text_block, hc]

/-- Witness for C5, at the initial state (zero steps) and at concrete
states with the respective flags set. -/
theorem claim_C5_wit :
    ¬((SidenoteParser.set_link_prefix (SidenoteParser.new none)
        []).in_code_block = true ∧
      (SidenoteParser.set_link_prefix (SidenoteParser.new none)
        []).in_sidenote_block = true)
  ∧ SidenoteParser.parse_code_tag
        { SidenoteParser.new none with in_sidenote_block := true } true
        (.Start .Code) = .error .NotMatched
  ∧ SidenoteParser.parse_text_block
        { SidenoteParser.new none with in_code_block := true }
        ([lbrace] ++ "x".toList) =
      ({ SidenoteParser.new none with in_code_block := true },
        .Text ([lbrace] ++ "x".toList)) :=
  ⟨claim_C5.1 none [] [] []
      (SidenoteParser.set_link_prefix (SidenoteParser.new none) [])
      (Reaches.refl _ _),
   claim_C5.2.1 { SidenoteParser.new none with in_sidenote_block := true }
      (.Start .Code) rfl,
   claim_C5.2.2 { SidenoteParser.new none with in_code_block := true }
      ([lbrace] ++ "x".toList) rfl⟩

/-! ## The sidenote round trip (C1) -/

theorem findDelim_none (l : List Char)
    (h : SidenoteParser.findDelim l = none) :
    l.takeWhile (fun c => !isBraceChar c) = l ∧
      l.dropWhile (fun c => !isBraceChar c) = [] := by
  induction l with
  | nil => simp
  | cons c rest ih =>
    simp only [SidenoteParser.findDelim] at h
    split at h
    · exact Option.noConfusion h
    · rename_i hc
      simp only [Option.map_eq_none'] at h
      obtain ⟨h1, h2⟩ := ih h
      rw [List.takeWhile_cons, List.dropWhile_cons]
      simp [hc, h1, h2]

theorem findDelim_some (l : List Char) (i : Nat)
    (h : SidenoteParser.findDelim l = some i) :
    l.take i = l.takeWhile (fun c => !isBraceChar c) ∧
      l.drop i = l.dropWhile (fun c => !isBraceChar c) := by
  induction l generalizing i with
  | nil => simp [SidenoteParser.findDelim] at h
  | cons c rest ih =>
    simp only [SidenoteParser.findDelim] at h
    split at h
    · rename_i hc
      simp only [Option.some.injEq] at h
      subst h
      rw [List.takeWhile_cons, List.dropWhile_cons]
      simp [hc]
    · rename_i hc
      cases hf : SidenoteParser.findDelim rest with
      | none => rw [hf] at h; simp at h
      | some j =>
        rw [hf] at h
        simp only [Option.map_some', Option.some.injEq] at h
        subst h
        obtain ⟨h1, h2⟩ := ih j hf
        rw [List.takeWhile_cons, List.dropWhile_cons]
        simp [hc, h1, h2]

theorem parse_first_sidenote_eq (p : SidenoteParser) (text : List Char) :
    SidenoteParser.parse_first_sidenote p text =
      ({ p with remaining_text := text.dropWhile (fun c => !isBraceChar c) },
        .Text (text.takeWhile (fun c => !isBraceChar c))) := by
  cases hf : SidenoteParser.findDelim text with
  | none =>
    obtain ⟨h1, h2⟩ := findDelim_none text hf
    simp [SidenoteParser.parse_first_sidenote, hf, h1, h2]
  | some i =>
    obtain ⟨h1, h2⟩ := findDelim_some text i hf
    simp [SidenoteParser.parse_first_sidenote, hf, h1, h2]

theorem bracesOk_append_nonbrace (t m : List Char) (b : Bool)
    (h : ∀ c ∈ t, isBraceChar c = false) :
    bracesOk b (t ++ m) = bracesOk b m := by
  induction t with
  | nil => simp
  | cons c t ih =>
    have hc := h c (by simp)
    have hne1 : ¬(c = lbrace) := by
      intro hq; rw [hq] at hc; simp [isBraceChar] at hc
    have hne2 : ¬(c = rbrace) := by
      intro hq; rw [hq] at hc; simp [isBraceChar] at hc
    rw [List.cons_append]
    simp only [bracesOk, hne1, hne2, if_false]
    exact ih (fun x hx => h x (by simp [hx]))

theorem stripBraces_nonbrace (t : List Char)
    (h : ∀ c ∈ t, isBraceChar c = false) : stripBraces t = t := by
  rw [stripBraces, List.filter_eq_self]
  intro a ha
  simp [h a ha]

theorem mem_takeWhile_nonbrace (l : List Char) (c : Char)
    (h : c ∈ l.takeWhile (fun c => !isBraceChar c)) :
    isBraceChar c = false := by
  induction l with
  | nil => simp at h
  | cons a rest ih =>
    rw [List.takeWhile_cons] at h
    by_cases ha : isBraceChar a = false
    · simp only [ha, Bool.not_false, if_true, List.mem_cons] at h
      rcases h with h | h
      · rw [h]; exact ha
      · exact ih h
    · simp only [Bool.not_eq_false] at ha
      simp [ha] at h

theorem state_eta (p : SidenoteParser) (h1 : p.remaining_text = [])
    (h2 : p.in_sidenote_block = false) :
    ({ p with remaining_text := [], in_sidenote_block := false } :
      SidenoteParser) = p := by
  rw [← h1, ← h2]

theorem parse_remaining_text_lbrace (p : SidenoteParser) (rest : List Char)
    (h : p.remaining_text = lbrace :: rest)
    (hside : p.in_sidenote_block = false) :
    SidenoteParser.parse_remaining_text p =
      some (.ok
        ({ p with
            remaining_text := rest,
            in_sidenote_block := true },
          .InlineHtml "<span>".toList)) := by
  simp [SidenoteParser.parse_remaining_text,
    SidenoteParser.cycle_remaining_text, h, hside]

theorem parse_remaining_text_rbrace (p : SidenoteParser) (rest : List Char)
    (h : p.remaining_text = rbrace :: rest)
    (hside : p.in_sidenote_block = true) :
    SidenoteParser.parse_remaining_text p =
      some (.ok
        ({ p with
            remaining_text := rest,
            in_sidenote_block := false },
          .InlineHtml "</span>".toList)) := by
  have hlb : ¬(rbrace = lbrace) := by decide
  simp [SidenoteParser.parse_remaining_text,
    SidenoteParser.cycle_remaining_text, h, hside, hlb]

theorem parse_remaining_text_other (p : SidenoteParser) (c : Char)
    (rest : List Char) (h : p.remaining_text = c :: rest)
    (hcb : isBraceChar c = false) :
    SidenoteParser.parse_remaining_text p =
      some (.ok (SidenoteParser.parse_first_sidenote
        { p with remaining_text := rest } (c :: rest))) := by
  have hc1 : ¬(c = lbrace) := by
    intro hq; rw [hq] at hcb; simp [isBraceChar] at hcb
  have hc2 : ¬(c = rbrace) := by
    intro hq; rw [hq] at hcb; simp [isBraceChar] at hcb
  simp [SidenoteParser.parse_remaining_text,
    SidenoteParser.cycle_remaining_text, h, hc1, hc2]

theorem drainText_nil (fuel : Nat) (p : SidenoteParser)
    (h : p.remaining_text = []) : drainText fuel p = .out [] p := by
  unfold drainText
  simp [h]

theorem drainText_cons (fuel : Nat) (p : SidenoteParser) (c : Char)
    (rest : List Char) (h : p.remaining_text = c :: rest) :
    drainText (fuel + 1) p =
      (match SidenoteParser.parse_remaining_text p with
      | none => .panicked
      | some (.error e) => .fail e
      | some (.ok (p1, ev)) =>
        match drainText fuel p1 with
        | .out evs q => .out (ev :: evs) q
        | r => r) := by
  conv_lhs => rw [drainText.eq_def]
  simp [h]

theorem bracesOk_lbrace (b : Bool) (rest : List Char) :
    bracesOk b (lbrace :: rest) = (!b && bracesOk true rest) := by
  simp [bracesOk]

theorem bracesOk_rbrace (b : Bool) (rest : List Char) :
    bracesOk b (rbrace :: rest) = (b && bracesOk false rest) := by
  have hlb : ¬(rbrace = lbrace) := by decide
  simp [bracesOk, hlb]

theorem bracesOk_other (b : Bool) (c : Char) (rest : List Char)
    (hcb : isBraceChar c = false) :
    bracesOk b (c :: rest) = bracesOk b rest := by
  have hc1 : ¬(c = lbrace) := by
    intro hq; rw [hq] at hcb; simp [isBraceChar] at hcb
  have hc2 : ¬(c = rbrace) := by
    intro hq; rw [hq] at hcb; simp [isBraceChar] at hcb
  simp [bracesOk, hc1, hc2]

theorem stripBraces_append (a b : List Char) :
    stripBraces (a ++ b) = stripBraces a ++ stripBraces b := by
  simp [stripBraces, List.filter_append]

theorem drainText_ok (fuel : Nat) :
    ∀ p : SidenoteParser, p.remaining_text.length ≤ fuel →
    bracesOk p.in_sidenote_block p.remaining_text = true →
    ∃ evs, drainText fuel p = .out evs
        { p with remaining_text := [], in_sidenote_block := false } ∧
      textContent evs = stripBraces p.remaining_text := by
  induction fuel with
  | zero =>
    intro p hlen hok
    rw [Nat.le_zero, List.length_eq_zero] at hlen
    rw [hlen] at hok
    simp only [bracesOk, Bool.not_eq_true'] at hok
    refine ⟨[], ?_, by simp [textContent, hlen, stripBraces]⟩
    rw [drainText_nil 0 p hlen, state_eta p hlen hok]
  | succ fuel ih =>
    intro p hlen hok
    cases hr : p.remaining_text with
    | nil =>
      rw [hr] at hok
      simp only [bracesOk, Bool.not_eq_true'] at hok
      refine ⟨[], ?_, by simp [textContent, hr, stripBraces]⟩
      rw [drainText_nil (fuel + 1) p hr, state_eta p hr hok]
    | cons c rest =>
      rw [hr] at hok hlen
      simp only [List.length_cons, Nat.add_le_add_iff_right] at hlen
      rw [drainText_cons fuel p c rest hr]
      by_cases hc1 : c = lbrace
      · subst hc1
        rw [bracesOk_lbrace] at hok
        simp only [Bool.and_eq_true, Bool.not_eq_true'] at hok
        obtain ⟨hb, hok2⟩ := hok
        obtain ⟨evs2, hdrain, htext⟩ := ih
          { p with remaining_text := rest, in_sidenote_block := true }
          (by simpa using hlen) (by simpa using hok2)
        rw [parse_remaining_text_lbrace p rest hr hb]
        simp only [hdrain]
        refine ⟨.InlineHtml "<span>".toList :: evs2, rfl, ?_⟩
        simp only [textContent, htext]
        simp [stripBraces, isBraceChar]
      · by_cases hc2 : c = rbrace
        · subst hc2
          rw [bracesOk_rbrace] at hok
          simp only [Bool.and_eq_true] at hok
          obtain ⟨hb, hok2⟩ := hok
          obtain ⟨evs2, hdrain, htext⟩ := ih
            { p with remaining_text := rest, in_sidenote_block := false }
            (by simpa using hlen) (by simpa using hok2)
          rw [parse_remaining_text_rbrace p rest hr hb]
          simp only [hdrain]
          refine ⟨.InlineHtml "</span>".toList :: evs2, rfl, ?_⟩
          simp only [textContent, htext]
          simp [stripBraces, isBraceChar]
        · have hcb : isBraceChar c = false := by
            simp [isBraceChar, hc1, hc2]
          rw [bracesOk_other _ _ _ hcb] at hok
          set t := rest.takeWhile (fun x => !isBraceChar x) with ht
          set d := rest.dropWhile (fun x => !isBraceChar x) with hd
          have htd : t ++ d = rest := by
            rw [ht, hd]
            exact List.takeWhile_append_dropWhile (fun x => !isBraceChar x)
              rest
          have htall : ∀ x ∈ t, isBraceChar x = false := by
            intro x hx
            exact mem_takeWhile_nonbrace rest x hx
          have hdok : bracesOk p.in_sidenote_block d = true := by
            rw [← htd] at hok
            rwa [bracesOk_append_nonbrace t d _ htall] at hok
          have hdlen : d.length ≤ fuel := by
            rw [hd]
            have := (List.dropWhile_suffix
              (fun x => !isBraceChar x) (l := rest)).length_le
            omega
          obtain ⟨evs2, hdrain, htext⟩ := ih
            { p with remaining_text := d }
            (by simpa using hdlen) (by simpa using hdok)
          rw [parse_remaining_text_other p c rest hr hcb,
            parse_first_sidenote_eq]
          rw [List.takeWhile_cons, List.dropWhile_cons]
          simp only [hcb, Bool.not_false, if_true]
          simp only [← ht, ← hd]
          simp only [hdrain]
          refine ⟨.Text (c :: t) :: evs2, rfl, ?_⟩
          simp only [textContent, htext]
          have h1 : stripBraces (c :: rest) = c :: stripBraces rest := by
            simp [stripBraces, hcb]
          rw [h1, ← htd, stripBraces_append, stripBraces_nonbrace t htall]
          simp

/-- C1: on any fragment whose delimiters are balanced and non-nested,
pulling the sidenote compiler to exhaustion from a state outside any code
block and outside any sidenote succeeds with no error, ends with an empty
buffer outside any sidenote, and the concatenated text content of the
emitted `Text` events — the markup pair events discarded — is exactly the
original fragment with the brace characters removed. -/
theorem claim_C1 (p : SidenoteParser) (text : List Char)
    (hcode : p.in_code_block = false)
    (hside : p.in_sidenote_block = false)
    (hok : bracesOk false text = true) :
    ∃ evs, compileFragment text.length p text =
        .out evs { p with remaining_text := [], in_sidenote_block := false } ∧
      textContent evs = stripBraces text := by
  set t := text.takeWhile (fun x => !isBraceChar x) with ht
  set d := text.dropWhile (fun x => !isBraceChar x) with hd
  have htd : t ++ d = text := by
    rw [ht, hd]
    exact List.takeWhile_append_dropWhile (fun x => !isBraceChar x) text
  have htall : ∀ x ∈ t, isBraceChar x = false := by
    intro x hx
    exact mem_takeWhile_nonbrace text x hx
  have hdok : bracesOk false d = true := by
    rw [← htd] at hok
    rwa [bracesOk_append_nonbrace t d _ htall] at hok
  have hdlen : d.length ≤ text.length := by
    rw [hd]
    have := (List.dropWhile_suffix
      (fun x => !isBraceChar x) (l := text)).length_le
    omega
  obtain ⟨evs2, hdrain, htext⟩ := drainText_ok text.length
    { p with remaining_text := d }
    (by simpa using hdlen) (by simpa [hside] using hdok)
  refine ⟨.Text t :: evs2, ?_, ?_⟩
  · rw [compileFragment]
    simp only [SidenoteParser.parse_text_block, hcode, Bool.false_eq_true,
      if_false]
    rw [parse_first_sidenote_eq]
    simp only [← ht, ← hd, hdrain]
    rw [hcode]
  · simp only [textContent, htext]
    rw [← htd, stripBraces_append, stripBraces_nonbrace t htall]

/-- Witness for C1, on the fragment
`here is some text \x7bwith sidenotes\x7d`. -/
theorem claim_C1_wit :
    bracesOk false ("here is some text ".toList ++ [lbrace] ++
        "with sidenotes".toList ++ [rbrace]) = true
  ∧ ∃ evs, compileFragment ("here is some text ".toList ++ [lbrace] ++
        "with sidenotes".toList ++ [rbrace]).length
        (SidenoteParser.new none)
        ("here is some text ".toList ++ [lbrace] ++
          "with sidenotes".toList ++ [rbrace]) =
      .out evs
        { SidenoteParser.new none with
            remaining_text := [],
            in_sidenote_block := false } ∧
      textContent evs = stripBraces ("here is some text ".toList ++
        [lbrace] ++ "with sidenotes".toList ++ [rbrace]) :=
  ⟨by decide,
   claim_C1 (SidenoteParser.new none)
     ("here is some text ".toList ++ [lbrace] ++
       "with sidenotes".toList ++ [rbrace]) rfl rfl (by decide)⟩

/-! ## Sync-engine lemmas (C2) -/

theorem getD_set_self (l : List IndexedBlogPost) (i : Nat)
    (b d : IndexedBlogPost) (h : i < l.length) :
    (l.set i b).getD i d = b := by
  induction l generalizing i with
  | nil => simp at h
  | cons x xs ih =>
    cases i with
    | zero => simp
    | succ i =>
      simp only [List.set_cons_succ, List.getD_cons_succ]
      exact ih i (by simpa using h)

theorem getD_set_other (l : List IndexedBlogPost) (i j : Nat)
    (b d : IndexedBlogPost) (h : j ≠ i) :
    (l.set i b).getD j d = l.getD j d := by
  induction l generalizing i j with
  | nil => simp
  | cons x xs ih =>
    cases i with
    | zero =>
      cases j with
      | zero => exact absurd rfl h
      | succ j => simp
    | succ i =>
      cases j with
      | zero => simp
      | succ j =>
        simp only [List.set_cons_succ, List.getD_cons_succ]
        exact ih i j (by omega)

theorem getD_append_left (l1 l2 : List IndexedBlogPost) (j : Nat)
    (d : IndexedBlogPost) (h : j < l1.length) :
    (l1 ++ l2).getD j d = l1.getD j d := by
  induction l1 generalizing j with
  | nil => simp at h
  | cons x xs ih =>
    cases j with
    | zero => simp
    | succ j =>
      simp only [List.cons_append, List.getD_cons_succ]
      exact ih j (by simpa using h)

theorem getD_append_at (l1 : List IndexedBlogPost)
    (b d : IndexedBlogPost) :
    (l1 ++ [b]).getD l1.length d = b := by
  induction l1 with
  | nil => simp
  | cons x xs ih =>
    simp only [List.cons_append, List.length_cons, List.getD_cons_succ]
    exact ih

theorem getD_mem (l : List IndexedBlogPost) (j : Nat)
    (d : IndexedBlogPost) (h : j < l.length) : l.getD j d ∈ l := by
  induction l generalizing j with
  | nil => simp at h
  | cons x xs ih =>
    cases j with
    | zero => simp
    | succ j =>
      simp only [List.getD_cons_succ, List.mem_cons]
      exact Or.inr (ih j (by simpa using h))

theorem mem_getD (l : List IndexedBlogPost) (b : IndexedBlogPost)
    (d : IndexedBlogPost) (h : b ∈ l) :
    ∃ j, j < l.length ∧ l.getD j d = b := by
  induction l with
  | nil => simp at h
  | cons x xs ih =>
    rcases List.mem_cons.1 h with h1 | h1
    · exact ⟨0, by simp, by simp [h1]⟩
    · obtain ⟨j, hj, he⟩ := ih h1
      exact ⟨j + 1, by simpa using hj, by simpa using he⟩

theorem find_in_index_some (idx : List IndexedBlogPost) (post : BlogPost)
    (i : Nat) (h : find_in_index idx post = some i) :
    i < idx.length ∧
      (idx.getD i default).post_url = post_url_from_path post.path := by
  induction idx generalizing i with
  | nil => simp [find_in_index] at h
  | cons b rest ih =>
    simp only [find_in_index] at h
    split at h
    · rename_i hb
      simp only [Option.some.injEq] at h
      subst h
      exact ⟨by simp, by simpa using hb⟩
    · cases hf : find_in_index rest post with
      | none => rw [hf] at h; simp at h
      | some j =>
        rw [hf] at h
        simp only [Option.map_some', Option.some.injEq] at h
        subst h
        obtain ⟨h1, h2⟩ := ih j hf
        exact ⟨by simpa using h1, by simpa using h2⟩

theorem find_in_index_none (idx : List IndexedBlogPost) (post : BlogPost)
    (h : find_in_index idx post = none) :
    ∀ b ∈ idx, b.post_url ≠ post_url_from_path post.path := by
  induction idx with
  | nil => simp
  | cons b rest ih =>
    simp only [find_in_index] at h
    split at h
    · simp at h
    · rename_i hb
      simp only [Option.map_eq_none'] at h
      intro x hx
      rcases List.mem_cons.1 hx with h1 | h1
      · rw [h1]; exact hb
      · exact ih h x h1

theorem find_in_index_nodup (idx : List IndexedBlogPost) (post : BlogPost)
    (j : Nat) (hn : (idx.map (fun b => b.post_url)).Nodup)
    (hj : j < idx.length)
    (hu : (idx.getD j default).post_url = post_url_from_path post.path) :
    find_in_index idx post = some j := by
  induction idx generalizing j with
  | nil => simp at hj
  | cons b rest ih =>
    simp only [List.map_cons, List.nodup_cons] at hn
    obtain ⟨hb, hn⟩ := hn
    cases j with
    | zero =>
      simp only [List.getD_cons_zero] at hu
      simp [find_in_index, hu]
    | succ j =>
      simp only [List.getD_cons_succ] at hu
      have hjlen : j < rest.length := by simpa using hj
      have hbne : ¬(b.post_url = post_url_from_path post.path) := by
        intro he
        apply hb
        rw [he, ← hu]
        exact List.mem_map_of_mem (fun b => b.post_url)
          (getD_mem rest j default hjlen)
      simp only [find_in_index, hbne, if_false]
      rw [ih j hn hjlen hu]
      rfl

/-- The entry written back by `update`'s found-and-stale branch. -/
def staleEntry (conv : List (List Char) → Option (List Char)) (dry : Bool)
    (idx : List IndexedBlogPost) (post : BlogPost) (i : Nat) :
    IndexedBlogPost :=
  let b2 := { idx.getD i default with
                checked := true,
                path := post.path,
                last_updated := post.last_updated }
  if dry then b2 else convertPost conv b2

/-- The entry appended by `update`'s new-post branch. -/
def newEntry (conv : List (List Char) → Option (List Char)) (now : Nat)
    (dry : Bool) (post : BlogPost) : IndexedBlogPost :=
  let b := { path := post.path,
             post_url := post_url_from_path post.path,
             last_updated := now, first_published := now,
             checked := true, title := none : IndexedBlogPost }
  if dry then b else convertPost conv b

theorem staleEntry_fields (conv : List (List Char) → Option (List Char))
    (dry : Bool) (idx : List IndexedBlogPost) (post : BlogPost) (i : Nat) :
    (staleEntry conv dry idx post i).post_url =
        (idx.getD i default).post_url ∧
      (staleEntry conv dry idx post i).last_updated = post.last_updated ∧
      (staleEntry conv dry idx post i).checked = true := by
  cases dry <;> simp [staleEntry, convertPost]

theorem newEntry_fields (conv : List (List Char) → Option (List Char))
    (now : Nat) (dry : Bool) (post : BlogPost) :
    (newEntry conv now dry post).post_url =
        post_url_from_path post.path ∧
      (newEntry conv now dry post).last_updated = now ∧
      (newEntry conv now dry post).checked = true := by
  cases dry <;> simp [newEntry, convertPost]

theorem updateLoop_nil (conv : List (List Char) → Option (List Char))
    (now : Nat) (dry : Bool) (idx : List IndexedBlogPost) :
    updateLoop conv now dry idx [] = (idx, 0) := rfl

theorem updateLoop_cons_fresh (conv : List (List Char) → Option (List Char))
    (now : Nat) (dry : Bool) (idx : List IndexedBlogPost) (post : BlogPost)
    (rest : List BlogPost) (i : Nat)
    (hf : find_in_index idx post = some i)
    (hst : ¬((idx.getD i default).last_updated < post.last_updated)) :
    updateLoop conv now dry idx (post :: rest) =
      updateLoop conv now dry
        (idx.set i { idx.getD i default with
                       checked := true, path := post.path }) rest := by
  simp only [updateLoop, hf]
  rw [if_neg (by simpa using hst)]

theorem updateLoop_cons_stale (conv : List (List Char) → Option (List Char))
    (now : Nat) (dry : Bool) (idx : List IndexedBlogPost) (post : BlogPost)
    (rest : List BlogPost) (i : Nat)
    (hf : find_in_index idx post = some i)
    (hst : (idx.getD i default).last_updated < post.last_updated) :
    updateLoop conv now dry idx (post :: rest) =
      ((updateLoop conv now dry
          (idx.set i (staleEntry conv dry idx post i)) rest).1,
       (updateLoop conv now dry
          (idx.set i (staleEntry conv dry idx post i)) rest).2 + 1) := by
  simp only [updateLoop, hf]
  rw [if_pos (by simpa using hst)]
  simp [staleEntry]

theorem updateLoop_cons_new (conv : List (List Char) → Option (List Char))
    (now : Nat) (dry : Bool) (idx : List IndexedBlogPost) (post : BlogPost)
    (rest : List BlogPost) (hf : find_in_index idx post = none) :
    updateLoop conv now dry idx (post :: rest) =
      ((updateLoop conv now dry
          (idx ++ [newEntry conv now dry post]) rest).1,
       (updateLoop conv now dry
          (idx ++ [newEntry conv now dry post]) rest).2 + 1) := by
  simp only [updateLoop, hf]
  simp [newEntry]

theorem updateLoop_pres (conv : List (List Char) → Option (List Char))
    (now : Nat) (dry : Bool) :
    ∀ (posts : List BlogPost) (idx : List IndexedBlogPost),
      idx.length ≤ (updateLoop conv now dry idx posts).1.length ∧
      ∀ j, j < idx.length →
        ((updateLoop conv now dry idx posts).1.getD j default).post_url =
            (idx.getD j default).post_url ∧
          (idx.getD j default).last_updated ≤
            ((updateLoop conv now dry idx posts).1.getD j default).last_updated ∧
          ((idx.getD j default).checked = true →
            ((updateLoop conv now dry idx posts).1.getD j default).checked =
              true) := by
  intro posts
  induction posts with
  | nil =>
    intro idx
    rw [updateLoop_nil]
    exact ⟨Nat.le_refl _, fun j hj => ⟨rfl, Nat.le_refl _, fun h => h⟩⟩
  | cons post rest ih =>
    intro idx
    cases hf : find_in_index idx post with
    | some i =>
      obtain ⟨hi, hiu⟩ := find_in_index_some idx post i hf
      by_cases hst : (idx.getD i default).last_updated < post.last_updated
      · rw [updateLoop_cons_stale conv now dry idx post rest i hf hst]
        dsimp only
        obtain ⟨hs1, hs2, hs3⟩ := staleEntry_fields conv dry idx post i
        obtain ⟨ih1, ih2⟩ := ih (idx.set i (staleEntry conv dry idx post i))
        constructor
        · simpa using ih1
        · intro j hj
          have hj2 : j < (idx.set i (staleEntry conv dry idx post i)).length :=
            by simpa using hj
          obtain ⟨p1, p2, p3⟩ := ih2 j hj2
          by_cases hije : j = i
          · subst hije
            rw [getD_set_self idx j _ default hi] at p1 p2 p3
            refine ⟨by rw [p1, hs1], ?_, fun _ => p3 hs3⟩
            rw [hs2] at p2
            omega
          · rw [getD_set_other idx i j _ default hije] at p1 p2 p3
            exact ⟨p1, p2, p3⟩
      · rw [updateLoop_cons_fresh conv now dry idx post rest i hf hst]
        obtain ⟨ih1, ih2⟩ := ih (idx.set i
          { idx.getD i default with checked := true, path := post.path })
        constructor
        · simpa using ih1
        · intro j hj
          have hj2 : j < (idx.set i { idx.getD i default with
              checked := true, path := post.path }).length := by simpa using hj
          obtain ⟨p1, p2, p3⟩ := ih2 j hj2
          by_cases hije : j = i
          · subst hije
            rw [getD_set_self idx j _ default hi] at p1 p2 p3
            exact ⟨by simpa using p1, by simpa using p2,
              fun _ => p3 (by simp)⟩
          · rw [getD_set_other idx i j _ default hije] at p1 p2 p3
            exact ⟨p1, p2, p3⟩
    | none =>
      rw [updateLoop_cons_new conv now dry idx post rest hf]
      dsimp only
      obtain ⟨ih1, ih2⟩ := ih (idx ++ [newEntry conv now dry post])
      constructor
      · simp only [List.length_append, List.length_cons] at ih1 ⊢
        omega
      · intro j hj
        have hj2 : j < (idx ++ [newEntry conv now dry post]).length := by
          simp only [List.length_append]
          omega
        obtain ⟨p1, p2, p3⟩ := ih2 j hj2
        rw [getD_append_left idx _ j default hj] at p1 p2 p3
        exact ⟨p1, p2, p3⟩

theorem set_map_url (idx : List IndexedBlogPost) (i : Nat)
    (b : IndexedBlogPost)
    (h : b.post_url = (idx.getD i default).post_url) :
    (idx.set i b).map (fun x => x.post_url) =
      idx.map (fun x => x.post_url) := by
  induction idx generalizing i with
  | nil => simp
  | cons x xs ih =>
    cases i with
    | zero =>
      simp only [List.getD_cons_zero] at h
      simp [h]
    | succ i =>
      simp only [List.getD_cons_succ] at h
      simp only [List.set_cons_succ, List.map_cons, List.cons.injEq]
      exact ⟨trivial, ih i h⟩

theorem updateLoop_appended (conv : List (List Char) → Option (List Char))
    (now : Nat) (dry : Bool) :
    ∀ (posts : List BlogPost) (idx : List IndexedBlogPost) (j : Nat),
      idx.length ≤ j →
      j < (updateLoop conv now dry idx posts).1.length →
      ((updateLoop conv now dry idx posts).1.getD j default).checked = true ∧
        ((updateLoop conv now dry idx posts).1.getD j default).post_url ∈
          posts.map (fun post => post_url_from_path post.path) := by
  intro posts
  induction posts with
  | nil =>
    intro idx j h1 h2
    rw [updateLoop_nil] at h2
    dsimp only at h2
    omega
  | cons post rest ih =>
    intro idx j h1 h2
    cases hf : find_in_index idx post with
    | some i =>
      obtain ⟨hi, hiu⟩ := find_in_index_some idx post i hf
      by_cases hst : (idx.getD i default).last_updated < post.last_updated
      · rw [updateLoop_cons_stale conv now dry idx post rest i hf hst] at h2 ⊢
        dsimp only at h2 ⊢
        have := ih (idx.set i (staleEntry conv dry idx post i)) j
          (by simpa using h1) h2
        exact ⟨this.1, by simpa using Or.inr this.2⟩
      · rw [updateLoop_cons_fresh conv now dry idx post rest i hf hst] at h2 ⊢
        have := ih (idx.set i { idx.getD i default with
            checked := true, path := post.path }) j (by simpa using h1) h2
        exact ⟨this.1, by simpa using Or.inr this.2⟩
    | none =>
      rw [updateLoop_cons_new conv now dry idx post rest hf] at h2 ⊢
      dsimp only at h2 ⊢
      by_cases hje : j = idx.length
      · subst hje
        obtain ⟨hp1, hp2⟩ := updateLoop_pres conv now dry rest
          (idx ++ [newEntry conv now dry post])
        have hjlt : idx.length <
            (idx ++ [newEntry conv now dry post]).length := by
          simp
        obtain ⟨q1, q2, q3⟩ := hp2 idx.length hjlt
        rw [getD_append_at idx _ default] at q1 q2 q3
        obtain ⟨hn1, hn2, hn3⟩ := newEntry_fields conv now dry post
        refine ⟨q3 hn3, ?_⟩
        rw [q1, hn1]
        simp
      · have hjge : (idx ++ [newEntry conv now dry post]).length ≤ j := by
          simp only [List.length_append, List.length_cons, List.length_nil]
          omega
        have := ih (idx ++ [newEntry conv now dry post]) j hjge h2
        exact ⟨this.1, by simpa using Or.inr this.2⟩

theorem updateLoop_newly_checked
    (conv : List (List Char) → Option (List Char)) (now : Nat) (dry : Bool) :
    ∀ (posts : List BlogPost) (idx : List IndexedBlogPost) (j : Nat),
      j < idx.length →
      (idx.getD j default).checked = false →
      ((updateLoop conv now dry idx posts).1.getD j default).checked = true →
      ((updateLoop conv now dry idx posts).1.getD j default).post_url ∈
        posts.map (fun post => post_url_from_path post.path) := by
  intro posts
  induction posts with
  | nil =>
    intro idx j hj hfalse htrue
    rw [updateLoop_nil] at htrue
    dsimp only at htrue
    rw [hfalse] at htrue
    simp at htrue
  | cons post rest ih =>
    intro idx j hj hfalse htrue
    cases hf : find_in_index idx post with
    | some i =>
      obtain ⟨hi, hiu⟩ := find_in_index_some idx post i hf
      by_cases hije : j = i
      · subst hije
        -- the found entry: its final url is the post's own url
        by_cases hst : (idx.getD j default).last_updated < post.last_updated
        · rw [updateLoop_cons_stale conv now dry idx post rest j hf hst]
          dsimp only
          obtain ⟨hp1, hp2⟩ := updateLoop_pres conv now dry rest
            (idx.set j (staleEntry conv dry idx post j))
          obtain ⟨q1, q2, q3⟩ := hp2 j (by simpa using hj)
          rw [getD_set_self idx j _ default hj] at q1
          rw [q1, (staleEntry_fields conv dry idx post j).1, hiu]
          simp
        · rw [updateLoop_cons_fresh conv now dry idx post rest j hf hst]
          obtain ⟨hp1, hp2⟩ := updateLoop_pres conv now dry rest
            (idx.set j { idx.getD j default with
              checked := true, path := post.path })
          obtain ⟨q1, q2, q3⟩ := hp2 j (by simpa using hj)
          rw [getD_set_self idx j _ default hj] at q1
          simp only at q1
          rw [q1]
          simp only [hiu]
          simp
      · by_cases hst : (idx.getD i default).last_updated < post.last_updated
        · rw [updateLoop_cons_stale conv now dry idx post rest i hf hst]
            at htrue ⊢
          dsimp only at htrue ⊢
          have := ih (idx.set i (staleEntry conv dry idx post i)) j
            (by simpa using hj)
            (by rw [getD_set_other idx i j _ default hije]; exact hfalse)
            htrue
          simpa using Or.inr this
        · rw [updateLoop_cons_fresh conv now dry idx post rest i hf hst]
            at htrue ⊢
          have := ih (idx.set i { idx.getD i default with
              checked := true, path := post.path }) j (by simpa using hj)
            (by rw [getD_set_other idx i j _ default hije]; exact hfalse)
            htrue
          simpa using Or.inr this
    | none =>
      rw [updateLoop_cons_new conv now dry idx post rest hf] at htrue ⊢
      dsimp only at htrue ⊢
      have := ih (idx ++ [newEntry conv now dry post]) j
        (by simp only [List.length_append]; omega)
        (by rw [getD_append_left idx _ j default hj]; exact hfalse)
        htrue
      simpa using Or.inr this

theorem updateLoop_nodup (conv : List (List Char) → Option (List Char))
    (now : Nat) (dry : Bool) :
    ∀ (posts : List BlogPost) (idx : List IndexedBlogPost),
      (idx.map (fun b => b.post_url)).Nodup →
      ((updateLoop conv now dry idx posts).1.map
        (fun b => b.post_url)).Nodup := by
  intro posts
  induction posts with
  | nil =>
    intro idx h
    rw [updateLoop_nil]
    exact h
  | cons post rest ih =>
    intro idx h
    cases hf : find_in_index idx post with
    | some i =>
      by_cases hst : (idx.getD i default).last_updated < post.last_updated
      · rw [updateLoop_cons_stale conv now dry idx post rest i hf hst]
        dsimp only
        apply ih
        rw [set_map_url idx i _ (staleEntry_fields conv dry idx post i).1]
        exact h
      · rw [updateLoop_cons_fresh conv now dry idx post rest i hf hst]
        apply ih
        rw [set_map_url idx i _ (by simp)]
        exact h
    | none =>
      rw [updateLoop_cons_new conv now dry idx post rest hf]
      dsimp only
      apply ih
      rw [List.map_append, List.nodup_append]
      refine ⟨h, by simp, ?_⟩
      intro u hu hu2
      simp only [List.map_cons, List.map_nil, List.mem_cons,
        List.not_mem_nil, or_false] at hu2
      rw [(newEntry_fields conv now dry post).1] at hu2
      obtain ⟨b, hb, hbu⟩ := List.mem_map.1 hu
      exact find_in_index_none idx post hf b hb (by rw [hbu, hu2])

theorem updateLoop_cover (conv : List (List Char) → Option (List Char))
    (now : Nat) (dry : Bool) :
    ∀ (posts : List BlogPost) (idx : List IndexedBlogPost),
      (∀ q ∈ posts, q.last_updated ≤ now) →
      ∀ post ∈ posts, ∃ j,
        j < (updateLoop conv now dry idx posts).1.length ∧
        ((updateLoop conv now dry idx posts).1.getD j default).post_url =
          post_url_from_path post.path ∧
        ((updateLoop conv now dry idx posts).1.getD j default).checked =
          true ∧
        post.last_updated ≤
          ((updateLoop conv now dry idx posts).1.getD j default).last_updated
    := by
  intro posts
  induction posts with
  | nil =>
    intro idx hclock post hpost
    simp at hpost
  | cons post0 rest ih =>
    intro idx hclock post hpost
    rcases List.mem_cons.1 hpost with hhead | htail
    · subst hhead
      cases hf : find_in_index idx post with
      | some i =>
        obtain ⟨hi, hiu⟩ := find_in_index_some idx post i hf
        by_cases hst : (idx.getD i default).last_updated < post.last_updated
        · rw [updateLoop_cons_stale conv now dry idx post rest i hf hst]
          dsimp only
          obtain ⟨hp1, hp2⟩ := updateLoop_pres conv now dry rest
            (idx.set i (staleEntry conv dry idx post i))
          obtain ⟨q1, q2, q3⟩ := hp2 i (by simpa using hi)
          rw [getD_set_self idx i _ default hi] at q1 q2 q3
          obtain ⟨hs1, hs2, hs3⟩ := staleEntry_fields conv dry idx post i
          refine ⟨i, Nat.lt_of_lt_of_le (by simpa using hi) hp1,
            ?_, q3 hs3, ?_⟩
          · rw [q1, hs1, hiu]
          · rw [hs2] at q2
            exact q2
        · rw [updateLoop_cons_fresh conv now dry idx post rest i hf hst]
          obtain ⟨hp1, hp2⟩ := updateLoop_pres conv now dry rest
            (idx.set i { idx.getD i default with
              checked := true, path := post.path })
          obtain ⟨q1, q2, q3⟩ := hp2 i (by simpa using hi)
          rw [getD_set_self idx i _ default hi] at q1 q2 q3
          refine ⟨i, Nat.lt_of_lt_of_le (by simpa using hi) hp1,
            ?_, q3 (by simp), ?_⟩
          · rw [q1]
            simpa using hiu
          · dsimp only at q2 ⊢
            omega
      | none =>
        rw [updateLoop_cons_new conv now dry idx post rest hf]
        dsimp only
        obtain ⟨hp1, hp2⟩ := updateLoop_pres conv now dry rest
          (idx ++ [newEntry conv now dry post])
        have hjlt : idx.length <
            (idx ++ [newEntry conv now dry post]).length := by simp
        obtain ⟨q1, q2, q3⟩ := hp2 idx.length hjlt
        rw [getD_append_at idx _ default] at q1 q2 q3
        obtain ⟨hn1, hn2, hn3⟩ := newEntry_fields conv now dry post
        refine ⟨idx.length, Nat.lt_of_lt_of_le hjlt hp1, ?_, q3 hn3, ?_⟩
        · rw [q1, hn1]
        · rw [hn2] at q2
          have := hclock post (by simp)
          omega
    · cases hf : find_in_index idx post0 with
      | some i =>
        by_cases hst : (idx.getD i default).last_updated <
            post0.last_updated
        · rw [updateLoop_cons_stale conv now dry idx post0 rest i hf hst]
          dsimp only
          exact ih (idx.set i (staleEntry conv dry idx post0 i))
            (fun q hq => hclock q (by simp [hq])) post htail
        · rw [updateLoop_cons_fresh conv now dry idx post0 rest i hf hst]
          exact ih (idx.set i { idx.getD i default with
              checked := true, path := post0.path })
            (fun q hq => hclock q (by simp [hq])) post htail
      | none =>
        rw [updateLoop_cons_new conv now dry idx post0 rest hf]
        dsimp only
        exact ih (idx ++ [newEntry conv now dry post0])
          (fun q hq => hclock q (by simp [hq])) post htail

theorem nodup_url_inj (idx : List IndexedBlogPost)
    (hn : (idx.map (fun b => b.post_url)).Nodup) :
    ∀ (j k : Nat), j < idx.length → k < idx.length →
      (idx.getD j default).post_url = (idx.getD k default).post_url →
      j = k := by
  induction idx with
  | nil => intro j k hj hk he; simp at hj
  | cons x xs ih =>
    simp only [List.map_cons, List.nodup_cons] at hn
    obtain ⟨hx, hn⟩ := hn
    intro j k hj hk he
    cases j with
    | zero =>
      cases k with
      | zero => rfl
      | succ k =>
        exfalso
        apply hx
        simp only [List.getD_cons_zero, List.getD_cons_succ] at he
        rw [he]
        exact List.mem_map_of_mem (fun b => b.post_url)
          (getD_mem xs k default (by simpa using hk))
    | succ j =>
      cases k with
      | zero =>
        exfalso
        apply hx
        simp only [List.getD_cons_zero, List.getD_cons_succ] at he
        rw [← he]
        exact List.mem_map_of_mem (fun b => b.post_url)
          (getD_mem xs j default (by simpa using hj))
      | succ k =>
        simp only [List.getD_cons_succ] at he
        have := ih hn j k (by simpa using hj) (by simpa using hk) he
        omega

theorem updateLoop_stable (conv : List (List Char) → Option (List Char))
    (now : Nat) (dry : Bool) :
    ∀ (posts : List BlogPost) (idx : List IndexedBlogPost),
      (idx.map (fun b => b.post_url)).Nodup →
      (∀ post ∈ posts, ∃ j, j < idx.length ∧
        (idx.getD j default).post_url = post_url_from_path post.path ∧
        post.last_updated ≤ (idx.getD j default).last_updated) →
      (updateLoop conv now dry idx posts).2 = 0 ∧
      (updateLoop conv now dry idx posts).1.length = idx.length ∧
      ∀ j, j < idx.length →
        ((updateLoop conv now dry idx posts).1.getD j default).post_url =
          (idx.getD j default).post_url ∧
        ((idx.getD j default).checked = true →
          ((updateLoop conv now dry idx posts).1.getD j default).checked =
            true) ∧
        ((idx.getD j default).post_url ∈
            posts.map (fun q => post_url_from_path q.path) →
          ((updateLoop conv now dry idx posts).1.getD j default).checked =
            true) := by
  intro posts
  induction posts with
  | nil =>
    intro idx hn hcover
    rw [updateLoop_nil]
    exact ⟨rfl, rfl, fun j hj => ⟨rfl, fun h => h, fun h => by simp at h⟩⟩
  | cons post rest ih =>
    intro idx hn hcover
    obtain ⟨j0, hj0, hu0, hl0⟩ := hcover post (by simp)
    have hf : find_in_index idx post = some j0 :=
      find_in_index_nodup idx post j0 hn hj0 hu0
    have hst : ¬((idx.getD j0 default).last_updated < post.last_updated) :=
      by omega
    rw [updateLoop_cons_fresh conv now dry idx post rest j0 hf hst]
    have hb1u : ({ idx.getD j0 default with
        checked := true, path := post.path } :
          IndexedBlogPost).post_url = (idx.getD j0 default).post_url := by
      simp
    have hn2 : ((idx.set j0 { idx.getD j0 default with
        checked := true, path := post.path }).map
          (fun b => b.post_url)).Nodup := by
      rw [set_map_url idx j0 _ hb1u]
      exact hn
    have hcover2 : ∀ q ∈ rest, ∃ j,
        j < (idx.set j0 { idx.getD j0 default with
          checked := true, path := post.path }).length ∧
        ((idx.set j0 { idx.getD j0 default with
          checked := true, path := post.path }).getD j
            default).post_url = post_url_from_path q.path ∧
        q.last_updated ≤ ((idx.set j0 { idx.getD j0 default with
          checked := true, path := post.path }).getD j
            default).last_updated := by
      intro q hq
      obtain ⟨j, hj, hu, hl⟩ := hcover q (by simp [hq])
      by_cases hje : j = j0
      · subst hje
        refine ⟨j, by simpa using hj, ?_, ?_⟩
        · rw [getD_set_self idx j _ default hj]
          simpa using hu
        · rw [getD_set_self idx j _ default hj]
          simpa using hl
      · refine ⟨j, by simpa using hj, ?_, ?_⟩
        · rw [getD_set_other idx j0 j _ default hje]
          exact hu
        · rw [getD_set_other idx j0 j _ default hje]
          exact hl
    obtain ⟨ihc, ihl, ihj⟩ := ih (idx.set j0 { idx.getD j0 default with
      checked := true, path := post.path }) hn2 hcover2
    refine ⟨ihc, by simpa using ihl, ?_⟩
    intro j hj
    have hj2 : j < (idx.set j0 { idx.getD j0 default with
        checked := true, path := post.path }).length := by simpa using hj
    obtain ⟨q1, q2, q3⟩ := ihj j hj2
    by_cases hje : j = j0
    · subst hje
      rw [getD_set_self idx j _ default hj] at q1 q2 q3
      refine ⟨by simpa using q1, fun _ => q2 (by simp), fun _ => q2 (by simp)⟩
    · rw [getD_set_other idx j0 j _ default hje] at q1 q2 q3
      refine ⟨q1, q2, ?_⟩
      intro hmem
      simp only [List.map_cons, List.mem_cons] at hmem
      rcases hmem with hmem | hmem
      · exfalso
        apply hje
        exact nodup_url_inj idx hn j j0 hj hj0 (by rw [hmem, hu0])
      · exact q3 hmem

theorem update_eq (conv : List (List Char) → Option (List Char))
    (now : Nat) (dry : Bool) (idx : List IndexedBlogPost)
    (posts : List BlogPost) :
    update conv now dry idx posts =
      ((updateLoop conv now dry idx posts).1.filter (fun b => b.checked),
       (updateLoop conv now dry idx posts).2 +
         ((updateLoop conv now dry idx posts).1.filter
           (fun b => !b.checked)).length) := by
  unfold update
  cases hu : updateLoop conv now dry idx posts with
  | mk a b => rfl

theorem sync_eq (conv : List (List Char) → Option (List Char)) (now : Nat)
    (persisted0 : List PersistedPost) (all_posts : List BlogPost) :
    sync conv now persisted0 all_posts =
      (if 0 < (update conv now false (persisted0.map loadPost) all_posts).2
       then
        { count := (update conv now false (persisted0.map loadPost)
            all_posts).2,
          index_after := (update conv now false (persisted0.map loadPost)
            all_posts).1,
          persisted := ((update conv now false (persisted0.map loadPost)
            all_posts).1).map toPersisted,
          wrote_toc := true }
       else
        { count := (update conv now false (persisted0.map loadPost)
            all_posts).2,
          index_after := (update conv now false (persisted0.map loadPost)
            all_posts).1,
          persisted := persisted0,
          wrote_toc := false }) := by
  unfold sync
  cases hu : update conv now false (persisted0.map loadPost) all_posts with
  | mk a b =>
    dsimp only
    rw [hu]

theorem updateLoop_zero_indep
    (conv conv2 : List (List Char) → Option (List Char))
    (now now2 : Nat) (dry dry2 : Bool) :
    ∀ (posts : List BlogPost) (idx : List IndexedBlogPost),
      (updateLoop conv now dry idx posts).2 = 0 →
      updateLoop conv2 now2 dry2 idx posts =
        updateLoop conv now dry idx posts := by
  intro posts
  induction posts with
  | nil =>
    intro idx h
    rw [updateLoop_nil, updateLoop_nil]
  | cons post rest ih =>
    intro idx h
    cases hf : find_in_index idx post with
    | some i =>
      by_cases hst : (idx.getD i default).last_updated < post.last_updated
      · rw [updateLoop_cons_stale conv now dry idx post rest i hf hst] at h
        dsimp only at h
        omega
      · rw [updateLoop_cons_fresh conv now dry idx post rest i hf hst] at h
        rw [updateLoop_cons_fresh conv now dry idx post rest i hf hst,
          updateLoop_cons_fresh conv2 now2 dry2 idx post rest i hf hst]
        exact ih _ h
    | none =>
      rw [updateLoop_cons_new conv now dry idx post rest hf] at h
      dsimp only at h
      omega

theorem map_url_load (persisted : List PersistedPost) :
    (persisted.map loadPost).map (fun b => b.post_url) =
      persisted.map (fun r => r.post_url) := by
  rw [List.map_map]
  rfl

theorem map_url_persist (kept : List IndexedBlogPost) :
    ((kept.map toPersisted).map loadPost).map (fun b => b.post_url) =
      kept.map (fun b => b.post_url) := by
  rw [List.map_map, List.map_map]
  rfl

theorem update_zero (conv : List (List Char) → Option (List Char))
    (now : Nat) (dry : Bool) (idx : List IndexedBlogPost)
    (posts : List BlogPost)
    (hn : (idx.map (fun b => b.post_url)).Nodup)
    (hcover : ∀ post ∈ posts, ∃ j, j < idx.length ∧
      (idx.getD j default).post_url = post_url_from_path post.path ∧
      post.last_updated ≤ (idx.getD j default).last_updated)
    (hsub : ∀ j, j < idx.length → (idx.getD j default).post_url ∈
      posts.map (fun q => post_url_from_path q.path)) :
    (update conv now dry idx posts).2 = 0 := by
  obtain ⟨h0, hlen, hper⟩ := updateLoop_stable conv now dry posts idx hn
    hcover
  rw [update_eq]
  dsimp only
  rw [h0]
  have hall : ∀ b ∈ (updateLoop conv now dry idx posts).1,
      b.checked = true := by
    intro b hb
    obtain ⟨j, hj, he⟩ := mem_getD _ b default hb
    have hj2 : j < idx.length := by rw [← hlen]; exact hj
    have hc := (hper j hj2).2.2 (hsub j hj2)
    rw [he] at hc
    exact hc
  have hnilf : (updateLoop conv now dry idx posts).1.filter
      (fun b => !b.checked) = [] := by
    rw [List.filter_eq_nil_iff]
    intro a ha
    simp [hall a ha]
  rw [hnilf]
  rfl

theorem load_checked (persisted : List PersistedPost) (k : Nat)
    (hk : k < (persisted.map loadPost).length) :
    ((persisted.map loadPost).getD k default).checked = false := by
  obtain ⟨r, hr, hre⟩ :=
    List.mem_map.1 (getD_mem (persisted.map loadPost) k default hk)
  rw [← hre]
  rfl

/-- C2: (i) when one reconciliation pass computes an updated count of
zero, `sync` writes neither the table of contents nor the persisted index
(the persisted file is returned untouched); (ii) consequently, running
`sync` twice in succession over the same directory listing — with no
filesystem change in between, under a well-formed persisted index (no
duplicate post urls) and a clock not behind the listed modification times
— reports zero updates on the second run and leaves the persisted index
byte-for-byte unchanged. -/
theorem claim_C2 :
    (∀ (conv : List (List Char) → Option (List Char)) (now : Nat)
       (persisted0 : List PersistedPost) (all_posts : List BlogPost),
      (update conv now false (persisted0.map loadPost) all_posts).2 = 0 →
      (sync conv now persisted0 all_posts).wrote_toc = false ∧
        (sync conv now persisted0 all_posts).persisted = persisted0)
  ∧ (∀ (conv conv2 : List (List Char) → Option (List Char)) (t1 t2 : Nat)
       (persisted0 : List PersistedPost) (all_posts : List BlogPost),
      (persisted0.map (fun r => r.post_url)).Nodup →
      (∀ post ∈ all_posts, post.last_updated ≤ t1) →
      (sync conv2 t2 (sync conv t1 persisted0 all_posts).persisted
        all_posts).count = 0 ∧
      (sync conv2 t2 (sync conv t1 persisted0 all_posts).persisted
        all_posts).persisted =
        (sync conv t1 persisted0 all_posts).persisted) := by
  have part1 : ∀ (conv : List (List Char) → Option (List Char)) (now : Nat)
      (persisted0 : List PersistedPost) (all_posts : List BlogPost),
      (update conv now false (persisted0.map loadPost) all_posts).2 = 0 →
      (sync conv now persisted0 all_posts).wrote_toc = false ∧
        (sync conv now persisted0 all_posts).persisted = persisted0 := by
    intro conv now persisted0 L h
    rw [sync_eq]
    rw [if_neg (by omega)]
    exact ⟨rfl, rfl⟩
  refine ⟨part1, ?_⟩
  intro conv conv2 t1 t2 persisted0 L hnod hclock
  by_cases hn1 : (update conv t1 false (persisted0.map loadPost) L).2 = 0
  · -- the first sync wrote nothing; the second behaves like the first
    have hs1 := (part1 conv t1 persisted0 L hn1).2
    rw [hs1]
    have hloop0 : (updateLoop conv t1 false (persisted0.map loadPost) L).2 =
        0 := by
      rw [update_eq] at hn1
      dsimp only at hn1
      omega
    have hindep := updateLoop_zero_indep conv conv2 t1 t2 false false L
      (persisted0.map loadPost) hloop0
    have hn2 : (update conv2 t2 false (persisted0.map loadPost) L).2 = 0 := by
      rw [update_eq, hindep]
      rw [update_eq] at hn1
      dsimp only at hn1 ⊢
      omega
    constructor
    · rw [sync_eq, if_neg (by omega)]
      exact hn2
    · rw [sync_eq, if_neg (by omega)]
  · -- the first sync persisted the reconciled index
    have hn1pos : 0 < (update conv t1 false (persisted0.map loadPost) L).2 :=
      Nat.pos_of_ne_zero hn1
    have hs1p : (sync conv t1 persisted0 L).persisted =
        ((update conv t1 false (persisted0.map loadPost) L).1).map
          toPersisted := by
      rw [sync_eq, if_pos hn1pos]
    rw [hs1p]
    have hupd1 : (update conv t1 false (persisted0.map loadPost) L).1 =
        ((updateLoop conv t1 false (persisted0.map loadPost) L).1).filter
          (fun b => b.checked) := by
      rw [update_eq]
    rw [hupd1]
    set kept := ((updateLoop conv t1 false
      (persisted0.map loadPost) L).1).filter (fun b => b.checked) with hkept
    set idx2 := ((kept.map toPersisted).map loadPost) with hidx2
    have hn_idx0 : ((persisted0.map loadPost).map
        (fun b => b.post_url)).Nodup := by
      rw [map_url_load]
      exact hnod
    have hnr1 := updateLoop_nodup conv t1 false L (persisted0.map loadPost)
      hn_idx0
    have hsubl : List.Sublist (kept.map (fun b => b.post_url))
        (((updateLoop conv t1 false (persisted0.map loadPost) L).1).map
          (fun b => b.post_url)) := by
      rw [hkept]
      exact (List.filter_sublist _).map _
    have hnkept : (kept.map (fun b => b.post_url)).Nodup :=
      List.Nodup.sublist hsubl hnr1
    have hnidx2 : (idx2.map (fun b => b.post_url)).Nodup := by
      rw [hidx2, map_url_persist]
      exact hnkept
    have hcover2 : ∀ post ∈ L, ∃ j, j < idx2.length ∧
        (idx2.getD j default).post_url = post_url_from_path post.path ∧
        post.last_updated ≤ (idx2.getD j default).last_updated := by
      intro post hpost
      obtain ⟨j, hj, hu, hc, hl⟩ := updateLoop_cover conv t1 false L
        (persisted0.map loadPost) hclock post hpost
      have hbmem : (updateLoop conv t1 false
          (persisted0.map loadPost) L).1.getD j default ∈ kept := by
        rw [hkept, List.mem_filter]
        exact ⟨getD_mem _ j default hj, by simpa using hc⟩
      have hmem2 : loadPost (toPersisted ((updateLoop conv t1 false
          (persisted0.map loadPost) L).1.getD j default)) ∈ idx2 := by
        rw [hidx2]
        exact List.mem_map_of_mem loadPost
          (List.mem_map_of_mem toPersisted hbmem)
      obtain ⟨k, hk, hke⟩ := mem_getD idx2 _ default hmem2
      refine ⟨k, hk, ?_, ?_⟩
      · rw [hke]
        exact hu
      · rw [hke]
        exact hl
    have hsub2 : ∀ j, j < idx2.length → (idx2.getD j default).post_url ∈
        L.map (fun q => post_url_from_path q.path) := by
      intro j hj
      have hmem : idx2.getD j default ∈ idx2 := getD_mem idx2 j default hj
      rw [hidx2] at hmem
      obtain ⟨rp, hrp, hrpe⟩ := List.mem_map.1 hmem
      obtain ⟨b, hb, hbe⟩ := List.mem_map.1 hrp
      rw [hkept, List.mem_filter] at hb
      obtain ⟨hbr1, hbchk⟩ := hb
      obtain ⟨k, hk, hke⟩ := mem_getD _ b default hbr1
      have hurl_eq : (idx2.getD j default).post_url = b.post_url := by
        rw [← hrpe, ← hbe]
        rfl
      rw [hurl_eq, ← hke]
      by_cases hklt : k < (persisted0.map loadPost).length
      · exact updateLoop_newly_checked conv t1 false L
          (persisted0.map loadPost) k hklt
          (load_checked persisted0 k hklt)
          (by rw [hke]; simpa using hbchk)
      · exact (updateLoop_appended conv t1 false L
          (persisted0.map loadPost) k (by omega) hk).2
    have hn2 := update_zero conv2 t2 false idx2 L hnidx2 hcover2 hsub2
    constructor
    · rw [sync_eq, ← hidx2, if_neg (by omega)]
      exact hn2
    · rw [sync_eq, ← hidx2, if_neg (by omega)]

/-- Witness for C2, on a concrete blog: an empty persisted index and one
discovered post directory; after the first sync, the second sync reports
zero updates and leaves the persisted index unchanged. -/
theorem claim_C2_wit :
    (sync (fun _ => none) 11
        (sync (fun _ => none) 10 []
          [⟨["blog".toList, "irkutsk".toList], 5⟩]).persisted
        [⟨["blog".toList, "irkutsk".toList], 5⟩]).count = 0 ∧
    (sync (fun _ => none) 11
        (sync (fun _ => none) 10 []
          [⟨["blog".toList, "irkutsk".toList], 5⟩]).persisted
        [⟨["blog".toList, "irkutsk".toList], 5⟩]).persisted =
      (sync (fun _ => none) 10 []
        [⟨["blog".toList, "irkutsk".toList], 5⟩]).persisted :=
  claim_C2.2 (fun _ => none) (fun _ => none) 10 11 []
    [⟨["blog".toList, "irkutsk".toList], 5⟩]
    (by decide) (by decide)

end Wellington
